import Mathlib

/-!
Verification of the SAT-Comparation benchmark platform.

This file shallowly embeds the relevant parts of the Python sources
(`sat-benchmark-react/backend/app`) as Lean definitions and proves or
refutes the frozen claims about them.  Machine integers are modelled by
`Int`/`Nat`, floats by `ℚ`, Python lists by `List`, insertion-ordered
dicts by association lists, and fallible code by `Except`.
-/

/- ================================================================
   Section 1: outcome classification (C1)
   Sources: api/experiments.py run_solver (lines 389-396) and
   solvers/base.py SolverPlugin.parse_result (lines 373-385).
================================================================ -/

/-- Does `pre` start the character list? -/
def charsStartWith : List Char → List Char → Bool
  | [], _ => true
  | _ :: _, [] => false
  | a :: as, b :: bs => a == b && charsStartWith as bs

/-- Does `needle` occur contiguously in the character list? -/
def charsContain (needle : List Char) : List Char → Bool
  | [] => needle.isEmpty
  | b :: bs => charsStartWith needle (b :: bs) || charsContain needle bs

/-- Python `str.upper()` (the solver outputs involved are ASCII). -/
def pyUpper (s : String) : String := (s.toList.map Char.toUpper).asString

/-- Python `needle in haystack` substring test on strings. -/
def strContains (haystack needle : String) : Bool :=
  charsContain needle.toList haystack.toList

/-- Classification performed by `run_solver` in api/experiments.py
(lines 389-396).  `result` is initialised to `'UNKNOWN'` and the
branches may overwrite it; `output` is the captured stdout uppercased. -/
def run_solver_classify (returncode : Int) (solver_output : String) : String :=
  let output := pyUpper solver_output
  if returncode = 10 ∨ strContains output "SATISFIABLE" then "SAT"
  else if returncode = 20 ∨ strContains output "UNSATISFIABLE" then "UNSAT"
  else if returncode = 0 then "UNKNOWN"
  else "UNKNOWN"

/-- `SolverPlugin.parse_result` from solvers/base.py (lines 373-385). -/
def parse_result (exit_code : Int) (output : String) : String :=
  let upper := pyUpper output
  if exit_code = 10 ∨ strContains upper "SATISFIABLE" then
    if strContains upper "UNSATISFIABLE" then "UNSAT" else "SAT"
  else if exit_code = 20 ∨ strContains upper "UNSATISFIABLE" then "UNSAT"
  else "UNKNOWN"

/- ================================================================
   Section 2: run store (C9)
   Source: core/database.py DatabaseManager.add_run (lines 523-550)
   with the runs table's UNIQUE(experiment_id, solver_id, benchmark_id)
   constraint (line 150).  `INSERT OR REPLACE` under a UNIQUE
   constraint deletes any conflicting row and inserts the new row with
   a fresh autoincrement rowid, i.e. at the end of the table.
================================================================ -/

/-- A SQLite value as bound by the Python driver. -/
inductive SqlValue where
  | null : SqlValue
  | intVal : Int → SqlValue
  | realVal : ℚ → SqlValue
  | textVal : String → SqlValue
deriving DecidableEq

/-- One row of the `runs` table: the unique key plus the (column, value)
pairs actually written by the INSERT. -/
structure RunRow where
  experiment_id : Int
  solver_id : Int
  benchmark_id : Int
  fieldList : List (String × SqlValue)
deriving DecidableEq

/-- The `runs` table; `next_rowid` models the AUTOINCREMENT counter. -/
structure RunsTable where
  rows : List RunRow
  next_rowid : Nat

/-- The optional column whitelist of `add_run`. -/
def validFieldNames : List String :=
  ["exit_code", "verified", "cpu_time_seconds", "wall_time_seconds",
   "user_time_seconds", "system_time_seconds", "max_memory_kb",
   "avg_memory_kb", "conflicts", "decisions", "propagations",
   "restarts", "learnt_clauses", "deleted_clauses", "hostname",
   "solver_output", "error_message", "par2_score"]

/-- Does a row carry the given unique key? -/
def RunRow.hasKey (r : RunRow) (e s b : Int) : Bool :=
  r.experiment_id = e ∧ r.solver_id = s ∧ r.benchmark_id = b

/-- `DatabaseManager.add_run`: assembles the column list from the
supplied kwargs (in `validFieldNames` order, as the Python loop does)
and executes `INSERT OR REPLACE INTO runs ...`. -/
def add_run (t : RunsTable) (experiment_id solver_id benchmark_id : Int)
    (result : SqlValue) (kwargs : List (String × SqlValue)) : RunsTable :=
  let assembled := validFieldNames.filterMap
    (fun f => (kwargs.lookup f).map (fun v => (f, v)))
  let row : RunRow :=
    ⟨experiment_id, solver_id, benchmark_id, ("result", result) :: assembled⟩
  { rows := t.rows.filter (fun r => !(r.hasKey experiment_id solver_id benchmark_id))
      ++ [row],
    next_rowid := t.next_rowid + 1 }

/- ================================================================
   Section 3: statistical test results (C8, C10)
   Source: analysis/statistical_tests.py.
================================================================ -/

/-- The `TestResult` dataclass (statistical_tests.py lines 44-55). -/
structure TestResult where
  test_name : String
  statistic : ℚ
  p_value : ℚ
  significant_005 : Bool
  significant_001 : Bool
  effect_size : Option ℚ
  description : String
deriving DecidableEq

/-- A pandas DataFrame of run times: benchmarks as rows, solvers as
columns.  `shape` is `(rows.length, ncols)`. -/
structure DFrame where
  ncols : Nat
  rows : List (List ℚ)

/-- `StatisticalTestSuite.friedman_test` (lines 208-272).  The guarded
branches return the sentinel `TestResult`; the remaining computation
(rank matrix, `scipy_stats.friedmanchisquare`, Kendall W) only runs
when `k ≥ 3` and `n ≥ 3` and is abstracted as the external `core`. -/
def friedman_test (core : DFrame → TestResult) (time_matrix : DFrame) : TestResult :=
  let k := time_matrix.ncols
  let n := time_matrix.rows.length
  if k < 3 then
    { test_name := "Friedman", statistic := 0, p_value := 1,
      significant_005 := false, significant_001 := false,
      effect_size := none,
      description := "Need >= 3 solvers for Friedman test" }
  else if n < 3 then
    { test_name := "Friedman", statistic := 0, p_value := 1,
      significant_005 := false, significant_001 := false,
      effect_size := none,
      description := "Need >= 3 benchmarks for Friedman test" }
  else core time_matrix

/- ================================================================
   Section 4: experiment background task (C2, C4)
   Source: api/experiments.py run_experiment_task (lines 265-343) and
   stop_experiment (lines 217-228).

   The cooperative stop flag `active_experiments[id]['stop']` is a
   shared boolean read at the head of the inner loop and after it; the
   reads are linearised by a counter, so `stop n` is the value the
   task observes at its n-th read.  `get_solver`/`get_benchmark` are
   modelled by the predicates `ready`/`bex`, and `run_solver`'s result
   for a pair by `outcome` (only its `result` field matters here).
   This models the exception-free path of the task.
================================================================ -/

/-- The task-visible state: experiment row fields updated via
`db.update_experiment`, the experiment's run rows (`db.add_run` with
the fixed experiment id), the stop-flag read counter and the trace of
`(solver_id, benchmark_id)` pairs passed to `run_solver`. -/
structure TaskState where
  status : String
  completed_runs : Nat
  failed_runs : Nat
  runs : List (Int × Int × String)
  checks : Nat
  executed : List (Int × Int)

/-- `db.add_run(experiment_id, solver_id, benchmark_id, **result)` for
the task's fixed experiment: INSERT OR REPLACE on the
(solver, benchmark) key (see Section 2). -/
def addRunRow (rows : List (Int × Int × String)) (sid bid : Int) (res : String) :
    List (Int × Int × String) :=
  rows.filter (fun r => !(r.1 == sid && r.2.1 == bid)) ++ [(sid, bid, res)]

/-- Inner loop of `run_experiment_task`: `for benchmark_id in benchmark_ids`. -/
def runBenchLoop (solver_id : Int) (bex : Int → Bool) (stop : Nat → Bool)
    (outcome : Int → Int → String) : List Int → TaskState → TaskState
  | [], st => st
  | b :: rest, st =>
    if stop st.checks then { st with checks := st.checks + 1 }
    else
      let st := { st with checks := st.checks + 1 }
      if !(bex b) then runBenchLoop solver_id bex stop outcome rest st
      else
        let res := outcome solver_id b
        let st := { st with
          runs := addRunRow st.runs solver_id b res,
          executed := st.executed ++ [(solver_id, b)] }
        let st :=
          if res = "SAT" ∨ res = "UNSAT"
          then { st with completed_runs := st.completed_runs + 1 }
          else { st with failed_runs := st.failed_runs + 1 }
        runBenchLoop solver_id bex stop outcome rest st

/-- Outer loop of `run_experiment_task`: `for solver_id in solver_ids`,
skipping solvers that are missing or not ready, and re-reading the
stop flag after the inner loop. -/
def runSolverLoop (benchmark_ids : List Int) (ready bex : Int → Bool)
    (stop : Nat → Bool) (outcome : Int → Int → String) :
    List Int → TaskState → TaskState
  | [], st => st
  | s :: rest, st =>
    if !(ready s) then runSolverLoop benchmark_ids ready bex stop outcome rest st
    else
      let st := runBenchLoop s bex stop outcome benchmark_ids st
      if stop st.checks then { st with checks := st.checks + 1 }
      else
        runSolverLoop benchmark_ids ready bex stop outcome rest
          { st with checks := st.checks + 1 }

/-- `run_experiment_task` (exception-free path): run the nested loops,
then unconditionally `db.update_experiment(status='completed', ...)`. -/
def run_experiment_task (solver_ids benchmark_ids : List Int)
    (ready bex : Int → Bool) (stop : Nat → Bool)
    (outcome : Int → Int → String) (st0 : TaskState) : TaskState :=
  let st := runSolverLoop benchmark_ids ready bex stop outcome solver_ids st0
  { st with status := "completed" }

/- ================================================================
   Section 5: multiple-comparison corrections (C7)
   Source: analysis/statistical_tests.py
   StatisticalTestSuite.correct_pvalues (lines 342-395).
   `np.argsort` returns a permutation of 0..m-1 along which the values
   are ascending; it is modelled here by a stable insertion argsort.
================================================================ -/

/-- Insert index `i` into an index list kept ascending by `p`-value
(after existing equal values, making the sort stable). -/
def insertIdx (p : List ℚ) (i : Nat) : List Nat → List Nat
  | [] => [i]
  | j :: rest =>
    if p.getD j 0 ≤ p.getD i 0 then j :: insertIdx p i rest else i :: j :: rest

/-- `np.argsort(p_array)`: indices `0..m-1` ordered by ascending value. -/
def argsort (p : List ℚ) : List Nat :=
  (List.range p.length).foldl (fun acc i => insertIdx p i acc) []

/-- First Holm loop: `adjusted[idx] = min(p_array[idx] * (m - i), 1.0)`
for `i, idx in enumerate(order)`, starting from `np.zeros(m)`. -/
def holmFirstPass (p_values : List ℚ) : List ℚ :=
  let m := p_values.length
  let order := argsort p_values
  order.enum.foldl
    (fun adj pair =>
      adj.set pair.2 (min (p_values.getD pair.2 0 * ((m - pair.1 : Nat) : ℚ)) 1))
    (List.replicate m 0)

/-- Holm branch of `correct_pvalues`: first pass, then the left-to-right
monotonicity pass `adjusted[order[i]] = max(adjusted[order[i]],
adjusted[order[i-1]])` for `i in range(1, len(order))`. -/
def holm_adjust (p_values : List ℚ) : List ℚ :=
  let order := argsort p_values
  (List.range (order.length - 1)).foldl
    (fun adj i' =>
      let i := i' + 1
      adj.set (order.getD i 0)
        (max (adj.getD (order.getD i 0) 0) (adj.getD (order.getD (i - 1) 0) 0)))
    (holmFirstPass p_values)

/-- First Benjamini-Hochberg loop:
`adjusted[idx] = min(p_array[idx] * m / (i + 1), 1.0)`. -/
def bhFirstPass (p_values : List ℚ) : List ℚ :=
  let m := p_values.length
  let order := argsort p_values
  order.enum.foldl
    (fun adj pair =>
      adj.set pair.2 (min (p_values.getD pair.2 0 * (m : ℚ) / ((pair.1 : ℚ) + 1)) 1))
    (List.replicate m 0)

/-- BH branch of `correct_pvalues`: first pass, then the right-to-left
monotonicity pass `adjusted[order[i]] = min(adjusted[order[i]],
adjusted[order[i+1]])` for `i in range(len(order) - 2, -1, -1)`. -/
def bh_adjust (p_values : List ℚ) : List ℚ :=
  let order := argsort p_values
  ((List.range (order.length - 1)).reverse).foldl
    (fun adj i =>
      adj.set (order.getD i 0)
        (min (adj.getD (order.getD i 0) 0) (adj.getD (order.getD (i + 1) 0) 0)))
    (bhFirstPass p_values)

/-- Bonferroni branch: `np.minimum(p_array * m, 1.0)`. -/
def bonferroni_adjust (p_values : List ℚ) : List ℚ :=
  p_values.map (fun p => min (p * (p_values.length : ℚ)) 1)

/-- `correct_pvalues` dispatch on the `method` argument; an unknown
method raises `ValueError`. -/
def correct_pvalues (p_values : List ℚ) (method : String) : Except String (List ℚ) :=
  if method = "bonferroni" then .ok (bonferroni_adjust p_values)
  else if method = "holm" then .ok (holm_adjust p_values)
  else if method = "bh" then .ok (bh_adjust p_values)
  else .error ("Unknown method: " ++ method)

/- ================================================================
   Section 6: Wilcoxon signed-rank test (C8)
   Source: analysis/statistical_tests.py
   StatisticalTestSuite.wilcoxon_test (lines 86-137).

   `scipy_stats.wilcoxon(times1, times2, alternative='two-sided')` is
   an external library call.  With its defaults it drops the zero
   differences (zero_method='wilcox'), midranks the absolute
   differences, and its two-sided statistic is min(R+, R-) where R+
   (R-) is the rank sum over the positive (negative) differences; its
   p-value is a fixed function of that statistic and of the list of
   absolute nonzero differences (which determines n and the ties), so
   it is abstracted as the parameter `pfun`.
================================================================ -/

/-- Midranks (average ranks, 1-based) of each entry of `absd` within
`absd` itself. -/
def ranksAbs (absd : List ℚ) : List ℚ :=
  absd.map (fun x =>
    ((absd.countP (fun y => decide (y < x)) : ℚ)
      + ((absd.countP (fun y => decide (y = x)) : ℚ) + 1) / 2))

/-- Sum of the ranks of those differences whose value satisfies `sign`. -/
def signedRankSum (sign : ℚ → Bool) (d : List ℚ) : ℚ :=
  (((d.zip (ranksAbs (d.map (fun x => |x|)))).filter
      (fun pr => sign pr.1)).map Prod.snd).sum

/-- `StatisticalTestSuite.wilcoxon_test`.  The sentinel branch fires
when fewer than 6 pairwise differences are non-zero; otherwise the
scipy statistic, its (abstracted) p-value and the rank-biserial
effect size `r = 1 - 2*stat/(n*(n+1)/2)` with `n = len(times1)` are
reported. -/
def wilcoxon_test (pfun : ℚ → List ℚ → ℚ) (times1 times2 : List ℚ) : TestResult :=
  let diff := List.zipWith (fun a b => a - b) times1 times2
  if diff.countP (fun x => decide (x ≠ 0)) < 6 then
    { test_name := "Wilcoxon Signed-Rank", statistic := 0, p_value := 1,
      significant_005 := false, significant_001 := false, effect_size := none,
      description := "Insufficient non-tied pairs (need >= 6)" }
  else
    let d := diff.filter (fun x => decide (x ≠ 0))
    let absd := d.map (fun x => |x|)
    let rplus := signedRankSum (fun x => decide (0 < x)) d
    let rminus := signedRankSum (fun x => decide (x < 0)) d
    let stat := min rplus rminus
    let p := pfun stat absd
    let n : ℚ := (times1.length : ℚ)
    let r := 1 - 2 * stat / (n * (n + 1) / 2)
    { test_name := "Wilcoxon Signed-Rank", statistic := stat, p_value := p,
      significant_005 := decide (p < 5 / 100), significant_001 := decide (p < 1 / 100),
      effect_size := some r,
      description := "Non-parametric paired test" }

/- ================================================================
   Section 7: the modelling compiler (C3, C5, C6)
   Source: api/sat_modeler.py, class CNFCompiler (lines 465-710) and
   the endpoint compile_model (lines 977-1002).
================================================================ -/

/-- AST expression nodes (sat_modeler.py lines 228-281). -/
inductive Expr where
  | litTrue : Expr
  | litFalse : Expr
  | varRef (name : String) : Expr
  | notE (child : Expr) : Expr
  | andE (children : List Expr) : Expr
  | orE (children : List Expr) : Expr
  | implE (lhs rhs : Expr) : Expr
  | iffE (lhs rhs : Expr) : Expr
  | xorE (a b : Expr) : Expr
  | atMost (k : Nat) (vs : List String) : Expr
  | atLeast (k : Nat) (vs : List String) : Expr
  | exactly (k : Nat) (vs : List String) : Expr

/-- Top-level statements (sat_modeler.py lines 213-225). -/
inductive Stmt where
  | varDecl (names : List String) : Stmt
  | constraint (e : Expr) : Stmt
  | solveSatisfy : Stmt

/-- Compiler state: `_var_map` (a Python dict, i.e. an insertion-ordered
map with unique keys), `_next_id`, and `_clauses`. -/
structure CNFCompiler where
  var_map : List (String × Nat)
  next_id : Nat
  clauses : List (List Int)

/-- `CNFCompiler.__init__`. -/
def initCompiler : CNFCompiler := ⟨[], 1, []⟩

/-- `CNFCompiler.var_id`: look the name up, allocating on a miss. -/
def var_id (name : String) (s : CNFCompiler) : Nat × CNFCompiler :=
  match s.var_map.lookup name with
  | some i => (i, s)
  | none =>
    (s.next_id,
      { var_map := s.var_map ++ [(name, s.next_id)],
        next_id := s.next_id + 1, clauses := s.clauses })

/-- `CNFCompiler._aux`: allocate an anonymous Tseitin variable. -/
def mkAux (s : CNFCompiler) : Nat × CNFCompiler :=
  (s.next_id, { s with next_id := s.next_id + 1 })

/-- `CNFCompiler.add_clause`. -/
def add_clause (lits : List Int) (s : CNFCompiler) : CNFCompiler :=
  { s with clauses := s.clauses ++ [lits] }

/-- Append several clauses in order (a run of `add_clause` calls). -/
def addAll (cs : List (List Int)) (s : CNFCompiler) : CNFCompiler :=
  cs.foldl (fun s c => add_clause c s) s

/-- The literal-gathering loop shared by `_encode_atmost` and
`_encode_atleast`: for each name, raise on an undeclared variable,
else append `var_id(v)`. -/
def getLits (var_names declared : List String) (s : CNFCompiler) :
    Except String (List Nat × CNFCompiler) :=
  match var_names with
  | [] => .ok ([], s)
  | v :: rest =>
    if v ∈ declared then
      let (i, s) := var_id v s
      match getLits rest declared s with
      | .ok (is, s) => .ok (i :: is, s)
      | .error e => .error e
    else .error ("Undeclared variable " ++ v)

/-- `itertools.combinations(lits, n)`: all length-`n` subsequences in
the order Python emits them (lexicographic by position). -/
def combinations {α : Type} : Nat → List α → List (List α)
  | 0, _ => [[]]
  | _ + 1, [] => []
  | k + 1, x :: xs =>
    (combinations k xs).map (fun c => x :: c) ++ combinations (k + 1) xs

/-- `CNFCompiler._atmost_pairwise` (lines 637-645). -/
def atmost_pairwise (k : Nat) (lits : List Nat) (s : CNFCompiler) :
    Int × CNFCompiler :=
  let (aux, s) := mkAux s
  let s := addAll ((combinations (k + 1) lits).map
    (fun combo => (-(aux : Int)) :: combo.map (fun l : Nat => -(l : Int)))) s
  let s := add_clause ((aux : Int) :: lits.map (fun l : Nat => (l : Int))) s
  ((aux : Int), s)

/-- `lits[i]` as a DIMACS literal. -/
def litAt (lits : List Nat) (i : Nat) : Int := ((lits.getD i 0 : Nat) : Int)

/-- `R[i][j]` as a variable index. -/
def regAt (R : List (List Nat)) (i j : Nat) : Nat := (R.getD i []).getD j 0

/-- `R[i][j]` as a positive DIMACS literal. -/
def regLit (R : List (List Nat)) (i j : Nat) : Int := ((regAt R i j : Nat) : Int)

/-- Allocate `k` auxiliary variables (`[self._aux() for _ in range(k)]`). -/
def mkAuxRow : Nat → CNFCompiler → List Nat × CNFCompiler
  | 0, s => ([], s)
  | m + 1, s =>
    let (a, s) := mkAux s
    let (rest, s) := mkAuxRow m s
    (a :: rest, s)

/-- Allocate the `n × k` register matrix, row-major as in the Python
nested comprehension. -/
def mkAuxMatrix : Nat → Nat → CNFCompiler → List (List Nat) × CNFCompiler
  | 0, _, s => ([], s)
  | m + 1, k, s =>
    let (row, s) := mkAuxRow k s
    let (rest, s) := mkAuxMatrix m k s
    (row :: rest, s)

/-- Clauses emitted by one iteration `i ≥ 1` of the main loop of
`_atmost_sequential_counter`, in emission order. -/
def seqRowClauses (k : Nat) (lits : List Nat) (R : List (List Nat)) (i : Nat) :
    List (List Int) :=
  [[-(litAt lits i), regLit R i 0],
   [-(regLit R (i - 1) 0), regLit R i 0],
   [litAt lits i, regLit R (i - 1) 0, -(regLit R i 0)]]
  ++ (List.range (k - 1)).flatMap (fun j' =>
      let j := j' + 1
      [[-(litAt lits i), -(regLit R (i - 1) (j - 1)), regLit R i j],
       [-(regLit R (i - 1) j), regLit R i j],
       [litAt lits i, regLit R (i - 1) j, -(regLit R i j)],
       [regLit R (i - 1) (j - 1), -(regLit R i j)]])
  ++ [[-(litAt lits i), -(regLit R (i - 1) (k - 1))]]

/-- All clauses emitted by `_atmost_sequential_counter` before its
trailing `aux` clause, in emission order: the first-variable clauses,
the zeroing of `R[0][j]` for `j in range(1, k)`, then the main loop
`for i in range(1, n)`. -/
def seqClauses (k n : Nat) (lits : List Nat) (R : List (List Nat)) :
    List (List Int) :=
  [[-(litAt lits 0), regLit R 0 0], [litAt lits 0, -(regLit R 0 0)]]
  ++ (List.range (k - 1)).map (fun j' => [-(regLit R 0 (j' + 1))])
  ++ (List.range (n - 1)).flatMap (fun i' => seqRowClauses k lits R (i' + 1))

/-- `CNFCompiler._atmost_sequential_counter` (lines 647-675). -/
def atmost_sequential_counter (k : Nat) (lits : List Nat) (s : CNFCompiler) :
    Int × CNFCompiler :=
  let n := lits.length
  let (R, s) := mkAuxMatrix n k s
  let s := addAll (seqClauses k n lits R) s
  let (aux, s) := mkAux s
  let s := add_clause [(aux : Int)] s
  ((aux : Int), s)

/-- `CNFCompiler._encode_atmost` (lines 610-635). -/
def encode_atmost (k : Nat) (var_names declared : List String) (s : CNFCompiler) :
    Except String (Int × CNFCompiler) := do
  let (lits, s) ← getLits var_names declared s
  if k ≥ lits.length then
    let (aux, s) := mkAux s
    .ok ((aux : Int), add_clause [(aux : Int)] s)
  else if k = 0 then
    let (aux, s) := mkAux s
    let s := addAll (lits.map (fun l : Nat => [-(aux : Int), -(l : Int)])) s
    let s := add_clause ((aux : Int) :: lits.map (fun l : Nat => (l : Int))) s
    .ok ((aux : Int), s)
  else if lits.length ≤ 10 ∨ k = 1 then
    .ok (atmost_pairwise k lits s)
  else
    .ok (atmost_sequential_counter k lits s)

/-- The dual-variable loop of `_encode_atleast` (lines 698-707): for
each `v`, if `__neg_v` is not yet in `_var_map`, allocate it with
`_aux`, record it in `_var_map`, and emit the two equivalence clauses
against `var_id(v)`. -/
def mkNegVars : List String → CNFCompiler → List String × CNFCompiler
  | [], s => ([], s)
  | v :: rest, s =>
    let neg_name := "__neg_" ++ v
    let s :=
      match s.var_map.lookup neg_name with
      | some _ => s
      | none =>
        let (neg_id, s) := mkAux s
        let s := { s with var_map := s.var_map ++ [(neg_name, neg_id)] }
        let (orig, s) := var_id v s
        let s := add_clause [(neg_id : Int), (orig : Int)] s
        add_clause [-(neg_id : Int), -(orig : Int)] s
    let (rest', s) := mkNegVars rest s
    (neg_name :: rest', s)

/-- `CNFCompiler._encode_atleast` (lines 677-710).  With `k` a parsed
(non-negative) integer, Python's `k <= 0` test is `k = 0`. -/
def encode_atleast (k : Nat) (var_names declared : List String) (s : CNFCompiler) :
    Except String (Int × CNFCompiler) := do
  let (lits, s) ← getLits var_names declared s
  if k = 0 then
    let (aux, s) := mkAux s
    .ok ((aux : Int), add_clause [(aux : Int)] s)
  else if k = lits.length then
    let (aux, s) := mkAux s
    let s := addAll (lits.map (fun l : Nat => [-(aux : Int), (l : Int)])) s
    let s := add_clause ((aux : Int) :: lits.map (fun l : Nat => -(l : Int))) s
    .ok ((aux : Int), s)
  else
    let (neg_names, s) := mkNegVars var_names s
    encode_atmost (var_names.length - k) neg_names (declared ++ neg_names) s

mutual

/-- `CNFCompiler._encode` (lines 515-606). -/
def encode (e : Expr) (declared : List String) (s : CNFCompiler) :
    Except String (Int × CNFCompiler) :=
  match e with
  | .litTrue =>
    let (v, s) := mkAux s
    .ok ((v : Int), add_clause [(v : Int)] s)
  | .litFalse =>
    let (v, s) := mkAux s
    .ok (-(v : Int), add_clause [-(v : Int)] s)
  | .varRef name =>
    if name ∈ declared then
      let (i, s) := var_id name s
      .ok ((i : Int), s)
    else .error ("Undeclared variable " ++ name)
  | .notE child => do
    let (c, s) ← encode child declared s
    .ok (-c, s)
  | .andE children => do
    let (child_lits, s) ← encodeList children declared s
    let (aux, s) := mkAux s
    let s := addAll (child_lits.map (fun cl => [-(aux : Int), cl])) s
    let s := add_clause ((aux : Int) :: child_lits.map (fun cl => -cl)) s
    .ok ((aux : Int), s)
  | .orE children => do
    let (child_lits, s) ← encodeList children declared s
    let (aux, s) := mkAux s
    let s := add_clause ((-(aux : Int)) :: child_lits) s
    let s := addAll (child_lits.map (fun cl => [(aux : Int), -cl])) s
    .ok ((aux : Int), s)
  | .implE lhs rhs => do
    let (a, s) ← encode lhs declared s
    let (b, s) ← encode rhs declared s
    let (aux, s) := mkAux s
    let s := add_clause [-(aux : Int), -a, b] s
    let s := add_clause [(aux : Int), a] s
    let s := add_clause [(aux : Int), -b] s
    .ok ((aux : Int), s)
  | .iffE lhs rhs => do
    let (a, s) ← encode lhs declared s
    let (b, s) ← encode rhs declared s
    let (aux, s) := mkAux s
    let s := add_clause [-(aux : Int), -a, b] s
    let s := add_clause [-(aux : Int), a, -b] s
    let s := add_clause [(aux : Int), a, b] s
    let s := add_clause [(aux : Int), -a, -b] s
    .ok ((aux : Int), s)
  | .xorE ea eb => do
    let (a, s) ← encode ea declared s
    let (b, s) ← encode eb declared s
    let (aux, s) := mkAux s
    let s := add_clause [-(aux : Int), a, b] s
    let s := add_clause [-(aux : Int), -a, -b] s
    let s := add_clause [(aux : Int), -a, b] s
    let s := add_clause [(aux : Int), a, -b] s
    .ok ((aux : Int), s)
  | .atMost k vs => encode_atmost k vs declared s
  | .atLeast k vs => encode_atleast k vs declared s
  | .exactly k vs => do
    let (a, s) ← encode_atmost k vs declared s
    let (b, s) ← encode_atleast k vs declared s
    let (aux, s) := mkAux s
    let s := add_clause [-(aux : Int), a] s
    let s := add_clause [-(aux : Int), b] s
    let s := add_clause [(aux : Int), -a, -b] s
    .ok ((aux : Int), s)

/-- The left-to-right encoding of a Python list comprehension
`[self._encode(c, declared) for c in expr.children]`. -/
def encodeList (es : List Expr) (declared : List String) (s : CNFCompiler) :
    Except String (List Int × CNFCompiler) :=
  match es with
  | [] => .ok ([], s)
  | e :: rest => do
    let (l, s) ← encode e declared s
    let (ls, s) ← encodeList rest declared s
    .ok (l :: ls, s)

end

/-- The declaration part of `CNFCompiler.compile`: raise on a
re-declared name, else record it and pre-allocate its index. -/
def declNames : List String → List String → CNFCompiler →
    Except String (List String × CNFCompiler)
  | [], declared, s => .ok (declared, s)
  | name :: rest, declared, s =>
    if name ∈ declared then .error ("Variable " ++ name ++ " already declared")
    else
      let (_, s) := var_id name s
      declNames rest (declared ++ [name]) s

/-- The statement loop of `CNFCompiler.compile` (lines 490-505): each
`constraint e` encodes `e` to a literal and emits it as a unit clause;
`solve satisfy` is a no-op. -/
def compileStmts : List Stmt → List String → CNFCompiler →
    Except String (List String × CNFCompiler)
  | [], declared, s => .ok (declared, s)
  | .varDecl names :: rest, declared, s => do
    let (declared, s) ← declNames names declared s
    compileStmts rest declared s
  | .constraint e :: rest, declared, s => do
    let (lit, s) ← encode e declared s
    compileStmts rest declared (add_clause [lit] s)
  | .solveSatisfy :: rest, declared, s => compileStmts rest declared s

/-- Run the compiler on a statement list and return the final state. -/
def compileState (stmts : List Stmt) : Except String CNFCompiler := do
  let (_, s) ← compileStmts stmts [] initCompiler
  .ok s

/-- One DIMACS clause line: space-separated literals plus the
terminating `0`. -/
def clauseLine (cl : List Int) : String :=
  String.intercalate " " (cl.map toString) ++ " 0"

/-- The DIMACS text built at the end of `compile` (lines 507-511):
header `p cnf <next_id - 1> <len(clauses)>`, then one line per clause,
newline-terminated. -/
def dimacsOf (s : CNFCompiler) : String :=
  String.intercalate "\n"
    (("p cnf " ++ toString (s.next_id - 1) ++ " " ++ toString s.clauses.length)
      :: s.clauses.map clauseLine) ++ "\n"

/-- `CNFCompiler.compile`: the `(dimacs_string, variable_map)` pair. -/
def compile (stmts : List Stmt) : Except String (String × List (String × Nat)) := do
  let s ← compileState stmts
  .ok (dimacsOf s, s.var_map)

/- ── Satisfaction semantics for the emitted CNF ── -/

/-- A DIMACS literal is satisfied by an assignment of the variable
indices: a positive literal `l` iff variable `l` is true, a negative
literal iff variable `|l|` is false. -/
def litSat (σ : Nat → Bool) (l : Int) : Bool :=
  if 0 < l then σ l.natAbs else !(σ l.natAbs)

/-- A clause is satisfied iff some literal is. -/
def clauseSat (σ : Nat → Bool) (c : List Int) : Bool := c.any (litSat σ)

/-- A clause list is satisfied iff every clause is. -/
def cnfSat (σ : Nat → Bool) (cs : List (List Int)) : Bool := cs.all (clauseSat σ)

/-- The DIMACS index a compiled model gives to a source identifier
(0 when absent — never hit for declared identifiers). -/
def idxOf (name : String) (s : CNFCompiler) : Nat :=
  (s.var_map.lookup name).getD 0

/-- How many of the declared variables `V` an assignment sets true,
reading their indices through the compiled variable map. -/
def trueCountIn (σ : Nat → Bool) (s : CNFCompiler) (V : List String) : Nat :=
  V.countP (fun v => σ (idxOf v s))

/- ── Reference scans for the two monotonicity passes of Section 5 ── -/

/-- Running maximum of `v 0, …, v t` (the left-to-right Holm clamp in
sorted position space). -/
def scanMaxFun (v : Nat → ℚ) : Nat → ℚ
  | 0 => v 0
  | t + 1 => max (v (t + 1)) (scanMaxFun v t)

/-- `minFromFuel v f t` = minimum of `v t, …, v (t + f)` (the
right-to-left BH clamp in sorted position space, fuelled). -/
def minFromFuel (v : Nat → ℚ) : Nat → Nat → ℚ
  | 0, t => v t
  | fl + 1, t => min (v t) (minFromFuel v fl (t + 1))

/- ── Named views of the quantities computed inside wilcoxon_test
(the let-bound intermediates of the non-sentinel branch) ── -/

/-- The non-zero paired differences `diff[diff != 0]`. -/
def wilcoxonNonzeroDiff (times1 times2 : List ℚ) : List ℚ :=
  (List.zipWith (fun a b => a - b) times1 times2).filter (fun x => decide (x ≠ 0))

/-- Their absolute values (the tie structure scipy ranks over). -/
def wilcoxonAbsDiff (times1 times2 : List ℚ) : List ℚ :=
  (wilcoxonNonzeroDiff times1 times2).map (fun x => |x|)

/-- scipy's two-sided statistic `min(R+, R-)`. -/
def wilcoxonStat (times1 times2 : List ℚ) : ℚ :=
  min (signedRankSum (fun x => decide (0 < x)) (wilcoxonNonzeroDiff times1 times2))
    (signedRankSum (fun x => decide (x < 0)) (wilcoxonNonzeroDiff times1 times2))

/-- The rank-biserial effect size `1 - 2*stat/(n*(n+1)/2)` with
`n = len(times1)`. -/
def wilcoxonEffect (times1 times2 : List ℚ) : ℚ :=
  1 - 2 * wilcoxonStat times1 times2
    / ((times1.length : ℚ) * ((times1.length : ℚ) + 1) / 2)

/- ── Predicates about compiler states (used by C3, C5, C6) ── -/

/-- Well-formedness of a compiler state: the allocator starts at 1,
every mapped variable id is in `[1, next_id)`, and every emitted
literal is non-zero with absolute value below `next_id`. -/
structure WFState (s : CNFCompiler) : Prop where
  nid : 1 ≤ s.next_id
  vm : ∀ p ∈ s.var_map, 1 ≤ p.2 ∧ p.2 < s.next_id
  cl : ∀ c ∈ s.clauses, ∀ l ∈ c, l ≠ 0 ∧ l.natAbs < s.next_id

/-- One compiler state extends another: the allocator only grows and
`_var_map` / `_clauses` only receive appended entries. -/
def StExt (s s' : CNFCompiler) : Prop :=
  s.next_id ≤ s'.next_id ∧ (∃ t, s'.var_map = s.var_map ++ t) ∧
    (∃ u, s'.clauses = s.clauses ++ u)

/-- Every `_var_map` key is either a declared identifier or one of the
`__neg_` duals introduced by `_encode_atleast`. -/
def KeysOk (declared : List String) (s : CNFCompiler) : Prop :=
  ∀ p ∈ s.var_map, p.1 ∈ declared ∨ ∃ v, p.1 = "__neg_" ++ v

/-- The identifiers declared by the `var bool:` statements of a model. -/
def declaredOf : List Stmt → List String
  | [] => []
  | .varDecl ns :: rest => ns ++ declaredOf rest
  | .constraint _ :: rest => declaredOf rest
  | .solveSatisfy :: rest => declaredOf rest

/-- The largest absolute value of any literal in a clause list. -/
def maxAbsLit (cs : List (List Int)) : Nat :=
  (cs.map (fun c => (c.map Int.natAbs).foldr max 0)).foldr max 0

/-- The dual variable `__neg_v` of `v` is recorded and constrained to
be the negation of `v` by the two binary clauses. -/
def NegOk (s : CNFCompiler) (v : String) : Prop :=
  ∃ nid oid : Nat,
    s.var_map.lookup ("__neg_" ++ v) = some nid ∧
    s.var_map.lookup v = some oid ∧
    [(nid : Int), (oid : Int)] ∈ s.clauses ∧
    [-(nid : Int), -(oid : Int)] ∈ s.clauses

/-- The invariant bundle `_encode` maintains: on success the state only
extends, stays well-formed, keeps legal `_var_map` keys, and the
returned literal is non-zero and within the allocator bound. -/
def EncodeOk (e : Expr) : Prop :=
  ∀ (declared : List String) (s : CNFCompiler) (r : Int) (s' : CNFCompiler),
    encode e declared s = .ok (r, s') → WFState s → KeysOk declared s →
    StExt s s' ∧ WFState s' ∧ KeysOk declared s' ∧
    r ≠ 0 ∧ r.natAbs < s'.next_id

/-- The same bundle for the child-list encoding loop. -/
def EncodeListOk (es : List Expr) : Prop :=
  ∀ (declared : List String) (s : CNFCompiler) (ls : List Int)
    (s' : CNFCompiler),
    encodeList es declared s = .ok (ls, s') → WFState s → KeysOk declared s →
    StExt s s' ∧ WFState s' ∧ KeysOk declared s' ∧
    ∀ l ∈ ls, l ≠ 0 ∧ l.natAbs < s'.next_id

/- ================================================================
   Theorems.
================================================================ -/

/-- Claim C1.  The classification used for experiment runs
(`run_solver`, experiments.py 389-396) tests `'SATISFIABLE' in output`
first, and `"SATISFIABLE"` is a substring of `"UNSATISFIABLE"`: a
solver that prints `s UNSATISFIABLE` and exits 0 is classified `SAT`.
The sibling classifier `SolverPlugin.parse_result` (base.py 373-385)
follows the documented convention and returns `UNSAT` on the same
input, so the two contradict each other and the spec's decision table
is violated by the code path the experiments actually use. -/
theorem C1_run_solver_misclassifies_unsat_output :
    run_solver_classify 0 "s UNSATISFIABLE" = "SAT" ∧
    parse_result 0 "s UNSATISFIABLE" = "UNSAT" ∧
    "SAT" ≠ "UNSAT" := by
  refine ⟨by decide, by decide, by decide⟩

/-- Claim C2.  `run_experiment_task` ends with an unconditional
`db.update_experiment(status='completed', ...)` (experiments.py
330-334), even when every stop-flag read returned `True` and
`stop_experiment` had already persisted status `'stopped'`: after the
task exits the persisted status is `'completed'`, not `'stopped'`. -/
theorem C2_task_exit_overwrites_stopped (solver_ids benchmark_ids : List Int)
    (ready bex : Int → Bool) (stop : Nat → Bool)
    (outcome : Int → Int → String) (st0 : TaskState)
    (hstopped : st0.status = "stopped") (hreq : ∀ n, stop n = true) :
    (run_experiment_task solver_ids benchmark_ids ready bex stop outcome st0).status
        = "completed" ∧
    ("completed" : String) ≠ "stopped" := by
  exact ⟨rfl, by decide⟩

/-- Witness for C2 at a concrete stopped experiment. -/
theorem C2_task_exit_overwrites_stopped_witness :
    (TaskState.status ⟨"stopped", 0, 0, [], 0, []⟩ = "stopped") ∧
    ((fun _ => true) : Nat → Bool) 0 = true ∧
    ((run_experiment_task [1] [1, 2] (fun _ => true) (fun _ => true)
        (fun _ => true) (fun _ _ => "SAT")
        ⟨"stopped", 0, 0, [], 0, []⟩).status = "completed" ∧
      ("completed" : String) ≠ "stopped") :=
  ⟨rfl, rfl,
    C2_task_exit_overwrites_stopped [1] [1, 2] (fun _ => true) (fun _ => true)
      (fun _ => true) (fun _ _ => "SAT") ⟨"stopped", 0, 0, [], 0, []⟩
      rfl (fun _ => rfl)⟩

/-- Claim C4, counterexample.  With one ready solver `1`, benchmarks
`[1, 2]`, and a persisted run already present for the pair `(1, 1)`,
starting the experiment executes `(1, 1)` again: the executed trace is
the full product `[(1,1), (1,2)]`, not the pending set `[(1,2)]`
claimed by the spec (run_experiment_task subtracts nothing). -/
theorem C4_counterexample_rerun_of_persisted_pair :
    ((1, 1, "SAT") ∈ (TaskState.runs ⟨"running", 0, 0, [(1, 1, "SAT")], 0, []⟩)) ∧
    (run_experiment_task [1] [1, 2] (fun _ => true) (fun _ => true)
        (fun _ => false) (fun _ _ => "SAT")
        ⟨"running", 0, 0, [(1, 1, "SAT")], 0, []⟩).executed = [(1, 1), (1, 2)] ∧
    ([((1 : Int), (1 : Int)), (1, 2)] ≠ [((1 : Int), (2 : Int))]) := by
  refine ⟨by decide, by decide, by decide⟩

/-- Claim C4 as amended: starting an experiment executes every
(ready solver, existing benchmark) pair of the configured lists, in
solver-major order, regardless of which pairs already have persisted
runs; when the configured lists are duplicate-free each pair is
executed exactly once per start (re-runs overwrite rows via add_run,
so no duplicate rows arise either). -/
theorem C4_start_executes_full_product (solver_ids benchmark_ids : List Int)
    (ready bex : Int → Bool) (outcome : Int → Int → String) (st0 : TaskState) :
    ((run_experiment_task solver_ids benchmark_ids ready bex
        (fun _ => false) outcome st0).executed
      = st0.executed ++
        (solver_ids.filter ready).flatMap
          (fun s => (benchmark_ids.filter bex).map (fun b => (s, b)))) ∧
    (st0.executed = [] → solver_ids.Nodup → benchmark_ids.Nodup →
      (run_experiment_task solver_ids benchmark_ids ready bex
        (fun _ => false) outcome st0).executed.Nodup) := by
  have bench : ∀ (sid : Int) (bs : List Int) (st : TaskState),
      (runBenchLoop sid bex (fun _ => false) outcome bs st).executed
        = st.executed ++ (bs.filter bex).map (fun b => (sid, b)) := by
    intro sid bs
    induction bs with
    | nil => intro st; simp [runBenchLoop]
    | cons b rest ih =>
      intro st
      by_cases hb : bex b
      · by_cases hres : outcome sid b = "SAT" ∨ outcome sid b = "UNSAT" <;>
          simp [runBenchLoop, hb, hres, ih, List.filter_cons]
      · simp [runBenchLoop, hb, ih, List.filter_cons]
  have main : ∀ (ss : List Int) (st : TaskState),
      (runSolverLoop benchmark_ids ready bex (fun _ => false) outcome ss st).executed
        = st.executed ++ (ss.filter ready).flatMap
            (fun s => (benchmark_ids.filter bex).map (fun b => (s, b))) := by
    intro ss
    induction ss with
    | nil => intro st; simp [runSolverLoop]
    | cons s rest ih =>
      intro st
      by_cases hs : ready s
      · simp [runSolverLoop, hs, ih, bench, List.filter_cons]
      · simp [runSolverLoop, hs, ih, List.filter_cons]
  refine ⟨main solver_ids st0, ?_⟩
  intro h0 hs hb
  have : (run_experiment_task solver_ids benchmark_ids ready bex
      (fun _ => false) outcome st0).executed
      = (solver_ids.filter ready) ×ˢ (benchmark_ids.filter bex) := by
    rw [show (run_experiment_task solver_ids benchmark_ids ready bex
        (fun _ => false) outcome st0).executed
      = (runSolverLoop benchmark_ids ready bex (fun _ => false) outcome
          solver_ids st0).executed from rfl, main solver_ids st0, h0]
    rfl
  rw [this]
  exact List.Nodup.product (hs.filter _) (hb.filter _)

/-- Witness for C4's amended claim at concrete inputs. -/
theorem C4_start_executes_full_product_witness :
    ((run_experiment_task [1, 2] [3] (fun _ => true) (fun _ => true)
        (fun _ => false) (fun _ _ => "SAT")
        ⟨"running", 0, 0, [], 0, []⟩).executed
      = [] ++ ([1, 2].filter (fun _ => true)).flatMap
          (fun s => ([3].filter (fun _ => true)).map (fun b => (s, b)))) ∧
    (run_experiment_task [1, 2] [3] (fun _ => true) (fun _ => true)
        (fun _ => false) (fun _ _ => "SAT")
        ⟨"running", 0, 0, [], 0, []⟩).executed.Nodup :=
  ⟨(C4_start_executes_full_product [1, 2] [3] (fun _ => true) (fun _ => true)
      (fun _ _ => "SAT") ⟨"running", 0, 0, [], 0, []⟩).1,
    (C4_start_executes_full_product [1, 2] [3] (fun _ => true) (fun _ => true)
      (fun _ _ => "SAT") ⟨"running", 0, 0, [], 0, []⟩).2 rfl
      (by decide) (by decide)⟩

/-- Claim C9.  `add_run` uses `INSERT OR REPLACE` against the
`UNIQUE(experiment_id, solver_id, benchmark_id)` constraint: adding a
run whose key is already present leaves exactly one row for that key,
holding the newly supplied record's fields, and two successive adds
with the same key leave the same rows as the second add alone. -/
theorem C9_add_run_overwrites (t : RunsTable) (e s b : Int)
    (r1 r2 : SqlValue) (kw1 kw2 : List (String × SqlValue))
    (hpresent : ∃ row ∈ t.rows, row.hasKey e s b = true) :
    ((add_run t e s b r2 kw2).rows.filter (fun r => r.hasKey e s b)
        = [⟨e, s, b, ("result", r2) :: validFieldNames.filterMap
            (fun f => (kw2.lookup f).map (fun v => (f, v)))⟩]) ∧
    ((add_run (add_run t e s b r1 kw1) e s b r2 kw2).rows
        = (add_run t e s b r2 kw2).rows) := by
  have hkey : ∀ res kw, RunRow.hasKey
      ⟨e, s, b, ("result", res) :: validFieldNames.filterMap
        (fun f => ((kw : List (String × SqlValue)).lookup f).map (fun v => (f, v)))⟩
      e s b = true := by
    intro res kw; simp [RunRow.hasKey]
  constructor
  · simp [add_run, List.filter_append, List.filter_filter, hkey r2 kw2]
  · simp [add_run, List.filter_append, List.filter_filter, hkey r1 kw1]

/-- Witness for C9 at a concrete table holding the key (1, 2, 3). -/
theorem C9_add_run_overwrites_witness :
    (∃ row ∈ (RunsTable.rows ⟨[⟨1, 2, 3, []⟩], 5⟩), row.hasKey 1 2 3 = true) ∧
    (((add_run ⟨[⟨1, 2, 3, []⟩], 5⟩ 1 2 3 (.textVal "SAT") []).rows.filter
          (fun r => r.hasKey 1 2 3)
        = [⟨1, 2, 3, ("result", .textVal "SAT") :: validFieldNames.filterMap
            (fun f => (([] : List (String × SqlValue)).lookup f).map (fun v => (f, v)))⟩]) ∧
      ((add_run (add_run ⟨[⟨1, 2, 3, []⟩], 5⟩ 1 2 3 (.textVal "UNSAT") [])
          1 2 3 (.textVal "SAT") []).rows
        = (add_run ⟨[⟨1, 2, 3, []⟩], 5⟩ 1 2 3 (.textVal "SAT") []).rows)) :=
  ⟨⟨⟨1, 2, 3, []⟩, by decide⟩,
    C9_add_run_overwrites ⟨[⟨1, 2, 3, []⟩], 5⟩ 1 2 3
      (.textVal "UNSAT") (.textVal "SAT") [] []
      ⟨⟨1, 2, 3, []⟩, by decide⟩⟩

/-- Claim C10.  `friedman_test` returns the sentinel result
(statistic 0, p-value 1, both significance flags false) whenever the
matrix has fewer than 3 solver columns or fewer than 3 benchmark rows;
the guards run before any fallible computation (which is why the
conclusion holds for every possible `core`). -/
theorem C10_friedman_small_matrix_sentinel (core : DFrame → TestResult)
    (m : DFrame) (h : m.ncols < 3 ∨ m.rows.length < 3) :
    (friedman_test core m).statistic = 0 ∧
    (friedman_test core m).p_value = 1 ∧
    (friedman_test core m).significant_005 = false ∧
    (friedman_test core m).significant_001 = false := by
  rcases h with h | h
  · simp [friedman_test, h]
  · by_cases hk : m.ncols < 3 <;> simp [friedman_test, hk, h]

/-- Witness for C10 on a 2-column matrix. -/
theorem C10_friedman_small_matrix_sentinel_witness :
    ((DFrame.ncols ⟨2, [[1, 2], [3, 4], [5, 6]]⟩ < 3 ∨
        (DFrame.rows ⟨2, [[1, 2], [3, 4], [5, 6]]⟩).length < 3)) ∧
    ((friedman_test (fun _ => ⟨"x", 5, 0, true, true, none, "y"⟩)
        ⟨2, [[1, 2], [3, 4], [5, 6]]⟩).statistic = 0 ∧
      (friedman_test (fun _ => ⟨"x", 5, 0, true, true, none, "y"⟩)
        ⟨2, [[1, 2], [3, 4], [5, 6]]⟩).p_value = 1 ∧
      (friedman_test (fun _ => ⟨"x", 5, 0, true, true, none, "y"⟩)
        ⟨2, [[1, 2], [3, 4], [5, 6]]⟩).significant_005 = false ∧
      (friedman_test (fun _ => ⟨"x", 5, 0, true, true, none, "y"⟩)
        ⟨2, [[1, 2], [3, 4], [5, 6]]⟩).significant_001 = false) :=
  ⟨Or.inl (by decide),
    C10_friedman_small_matrix_sentinel (fun _ => ⟨"x", 5, 0, true, true, none, "y"⟩)
      ⟨2, [[1, 2], [3, 4], [5, 6]]⟩ (Or.inl (by decide))⟩

/- ── Helper lemmas for C7 ── -/

theorem getD_set_self (l : List ℚ) (i : Nat) (x : ℚ) (h : i < l.length) :
    (l.set i x).getD i 0 = x := by
  simp [List.getD_eq_getElem?_getD, List.getElem?_set, h]

theorem getD_set_other (l : List ℚ) (i j : Nat) (x : ℚ) (h : i ≠ j) :
    (l.set i x).getD j 0 = l.getD j 0 := by
  simp [List.getD_eq_getElem?_getD, List.getElem?_set, h]

theorem mem_insertIdx_iff (p : List ℚ) (i x : Nat) (l : List Nat) :
    x ∈ insertIdx p i l ↔ x = i ∨ x ∈ l := by
  induction l with
  | nil => simp [insertIdx]
  | cons j rest ih =>
    simp only [insertIdx]
    split_ifs with h
    · simp only [List.mem_cons, ih]
      tauto
    · simp only [List.mem_cons]

theorem insertIdx_perm (p : List ℚ) (i : Nat) (l : List Nat) :
    (insertIdx p i l).Perm (i :: l) := by
  induction l with
  | nil => simp [insertIdx]
  | cons j rest ih =>
    simp only [insertIdx]
    split_ifs with h
    · exact (ih.cons j).trans (List.Perm.swap i j rest)
    · exact List.Perm.refl _

theorem pairwise_insertIdx (p : List ℚ) (i : Nat) (l : List Nat)
    (h : l.Pairwise (fun a b => p.getD a 0 ≤ p.getD b 0)) :
    (insertIdx p i l).Pairwise (fun a b => p.getD a 0 ≤ p.getD b 0) := by
  induction l with
  | nil => simp [insertIdx]
  | cons j rest ih =>
    rcases List.pairwise_cons.1 h with ⟨hj, hrest⟩
    by_cases hc : p.getD j 0 ≤ p.getD i 0
    · simp only [insertIdx, hc, if_true]
      refine List.pairwise_cons.2 ⟨?_, ih hrest⟩
      intro x hx
      rcases (mem_insertIdx_iff p i x rest).1 hx with hx | hx
      · exact hx ▸ hc
      · exact hj x hx
    · simp only [insertIdx, hc, if_false]
      have hij : p.getD i 0 ≤ p.getD j 0 := le_of_not_le hc
      refine List.pairwise_cons.2 ⟨?_, h⟩
      intro x hx
      rcases List.mem_cons.1 hx with hx | hx
      · exact hx ▸ hij
      · exact le_trans hij (hj x hx)

theorem argsort_perm (p : List ℚ) : (argsort p).Perm (List.range p.length) := by
  have main : ∀ (ks acc : List Nat),
      (ks.foldl (fun acc i => insertIdx p i acc) acc).Perm (acc ++ ks) := by
    intro ks
    induction ks with
    | nil => intro acc; simp
    | cons i rest ih =>
      intro acc
      have h1 := ih (insertIdx p i acc)
      have h2 : (insertIdx p i acc ++ rest).Perm (acc ++ i :: rest) :=
        ((insertIdx_perm p i acc).append_right rest).trans List.perm_middle.symm
      exact h1.trans h2
  simpa [argsort] using main (List.range p.length) []

theorem argsort_length (p : List ℚ) : (argsort p).length = p.length := by
  simpa using (argsort_perm p).length_eq

theorem argsort_nodup (p : List ℚ) : (argsort p).Nodup :=
  (argsort_perm p).symm.nodup (List.nodup_range _)

theorem argsort_mem_lt (p : List ℚ) {x : Nat} (hx : x ∈ argsort p) :
    x < p.length := by
  have := ((argsort_perm p).mem_iff).1 hx
  simpa using this

theorem argsort_sorted (p : List ℚ) :
    (argsort p).Pairwise (fun a b => p.getD a 0 ≤ p.getD b 0) := by
  have main : ∀ (ks acc : List Nat),
      acc.Pairwise (fun a b => p.getD a 0 ≤ p.getD b 0) →
      (ks.foldl (fun acc i => insertIdx p i acc) acc).Pairwise
        (fun a b => p.getD a 0 ≤ p.getD b 0) := by
    intro ks
    induction ks with
    | nil => intro acc h; simpa using h
    | cons i rest ih =>
      intro acc h
      exact ih _ (pairwise_insertIdx p i acc h)
  exact main (List.range p.length) [] (by simp)

theorem getD_order_ne (order : List Nat) (hnd : order.Nodup) {t u : Nat}
    (ht : t < order.length) (hu : u < order.length) (hne : t ≠ u) :
    order.getD t 0 ≠ order.getD u 0 := by
  rw [List.getD_eq_getElem _ _ ht, List.getD_eq_getElem _ _ hu]
  intro hc
  exact hne ((List.Nodup.getElem_inj_iff hnd).1 hc)

theorem foldl_set_distinct (f : Nat → Nat → ℚ) (ks : List Nat) :
    ∀ (off : Nat) (a0 : List ℚ), ks.Nodup → (∀ x ∈ ks, x < a0.length) →
      (((ks.enumFrom off).foldl (fun a pr => a.set pr.2 (f pr.1 pr.2)) a0).length
          = a0.length) ∧
      (∀ x, x ∉ ks →
        ((ks.enumFrom off).foldl (fun a pr => a.set pr.2 (f pr.1 pr.2)) a0).getD x 0
          = a0.getD x 0) ∧
      (∀ t, t < ks.length →
        ((ks.enumFrom off).foldl (fun a pr => a.set pr.2 (f pr.1 pr.2)) a0).getD
            (ks.getD t 0) 0 = f (off + t) (ks.getD t 0)) := by
  induction ks with
  | nil =>
    intro off a0 _ _
    exact ⟨rfl, fun x _ => rfl, fun t ht => absurd ht (by simp)⟩
  | cons x rest ih =>
    intro off a0 hnd hlt
    have hx : x < a0.length := hlt x (List.mem_cons_self x rest)
    have hxrest : x ∉ rest := (List.nodup_cons.1 hnd).1
    have hlt' : ∀ y ∈ rest, y < (a0.set x (f off x)).length := by
      intro y hy
      rw [List.length_set]
      exact hlt y (List.mem_cons_of_mem x hy)
    obtain ⟨ihlen, ihother, ihval⟩ :=
      ih (off + 1) (a0.set x (f off x)) (List.nodup_cons.1 hnd).2 hlt'
    have hstep : (((x :: rest).enumFrom off).foldl
        (fun a pr => a.set pr.2 (f pr.1 pr.2)) a0)
        = (rest.enumFrom (off + 1)).foldl (fun a pr => a.set pr.2 (f pr.1 pr.2))
            (a0.set x (f off x)) := rfl
    refine ⟨?_, ?_, ?_⟩
    · rw [hstep, ihlen, List.length_set]
    · intro y hy
      have hyx : y ≠ x := fun hc => hy (hc ▸ List.mem_cons_self x rest)
      have hyrest : y ∉ rest := fun hc => hy (List.mem_cons_of_mem x hc)
      rw [hstep, ihother y hyrest, getD_set_other _ _ _ _ (Ne.symm hyx)]
    · intro t ht
      rw [hstep]
      match t with
      | 0 =>
        simp only [List.getD_cons_zero]
        rw [ihother x hxrest, getD_set_self _ _ _ hx, Nat.add_zero]
      | Nat.succ t' =>
        have ht' : t' < rest.length := by simpa using ht
        simp only [List.getD_cons_succ]
        rw [ihval t' ht']
        have harith : off + 1 + t' = off + (t' + 1) := by omega
        rw [harith]

theorem foldl_forward_max (order : List Nat) (m : Nat) (v : Nat → ℚ)
    (hlen : order.length = m) (hnd : order.Nodup)
    (hmem : ∀ x ∈ order, x < m) :
    ∀ (r : Nat) (a0 : List ℚ), r < m → a0.length = m →
      (∀ t, t < m → a0.getD (order.getD t 0) 0 = v t) →
      (((List.range r).foldl
          (fun adj i' =>
            let i := i' + 1
            adj.set (order.getD i 0)
              (max (adj.getD (order.getD i 0) 0)
                (adj.getD (order.getD (i - 1) 0) 0))) a0).length = m) ∧
      (∀ t, t < m →
        ((List.range r).foldl
          (fun adj i' =>
            let i := i' + 1
            adj.set (order.getD i 0)
              (max (adj.getD (order.getD i 0) 0)
                (adj.getD (order.getD (i - 1) 0) 0))) a0).getD (order.getD t 0) 0
          = if t ≤ r then scanMaxFun v t else v t) := by
  intro r
  induction r with
  | zero =>
    intro a0 _ h0 hv
    simp only [List.range_zero, List.foldl_nil]
    refine ⟨h0, fun t ht => ?_⟩
    rcases Nat.eq_zero_or_pos t with h | h
    · subst h
      rw [if_pos (le_refl 0), hv 0 ht]
      rfl
    · rw [if_neg (by omega), hv t ht]
  | succ r ihr =>
    intro a0 hr h0 hv
    obtain ⟨ihlen, ihval⟩ := ihr a0 (by omega) h0 hv
    rw [List.range_succ, List.foldl_append, List.foldl_cons, List.foldl_nil]
    set G := (List.range r).foldl
      (fun adj i' =>
        let i := i' + 1
        adj.set (order.getD i 0)
          (max (adj.getD (order.getD i 0) 0)
            (adj.getD (order.getD (i - 1) 0) 0))) a0 with hG
    show ((G.set (order.getD (r + 1) 0)
        (max (G.getD (order.getD (r + 1) 0) 0)
          (G.getD (order.getD (r + 1 - 1) 0) 0))).length = m) ∧ _
    have hsub : r + 1 - 1 = r := rfl
    have hcur : G.getD (order.getD (r + 1) 0) 0 = v (r + 1) := by
      rw [ihval (r + 1) hr, if_neg (by omega)]
    have hprev : G.getD (order.getD r 0) 0 = scanMaxFun v r := by
      rw [ihval r (by omega), if_pos (le_refl r)]
    have hpos : order.getD (r + 1) 0 < G.length := by
      rw [ihlen]
      refine hmem _ ?_
      rw [List.getD_eq_getElem _ _ (by omega : r + 1 < order.length)]
      exact List.getElem_mem _
    constructor
    · rw [List.length_set, ihlen]
    · intro t ht
      by_cases hteq : t = r + 1
      · subst hteq
        rw [getD_set_self _ _ _ hpos, if_pos (le_refl _), hsub, hcur, hprev]
        rfl
      · have hne : order.getD (r + 1) 0 ≠ order.getD t 0 :=
          getD_order_ne order hnd (by omega) (by omega) (by omega)
        rw [getD_set_other _ _ _ _ hne, ihval t ht]
        by_cases htr : t ≤ r
        · rw [if_pos htr, if_pos (by omega)]
        · rw [if_neg htr, if_neg (by omega)]

theorem foldl_backward_min (order : List Nat) (m : Nat) (v : Nat → ℚ)
    (hlen : order.length = m) (hnd : order.Nodup)
    (hmem : ∀ x ∈ order, x < m) :
    ∀ (r : Nat) (a0 : List ℚ), r < m → a0.length = m →
      (∀ t, t < m → a0.getD (order.getD t 0) 0
          = if r ≤ t then minFromFuel v (m - 1 - t) t else v t) →
      (((List.range r).reverse.foldl
          (fun adj i =>
            adj.set (order.getD i 0)
              (min (adj.getD (order.getD i 0) 0)
                (adj.getD (order.getD (i + 1) 0) 0))) a0).length = m) ∧
      (∀ t, t < m →
        ((List.range r).reverse.foldl
          (fun adj i =>
            adj.set (order.getD i 0)
              (min (adj.getD (order.getD i 0) 0)
                (adj.getD (order.getD (i + 1) 0) 0))) a0).getD (order.getD t 0) 0
          = minFromFuel v (m - 1 - t) t) := by
  intro r
  induction r with
  | zero =>
    intro a0 _ h0 hv
    simp only [List.range_zero, List.reverse_nil, List.foldl_nil]
    refine ⟨h0, fun t ht => ?_⟩
    rw [hv t ht, if_pos (Nat.zero_le t)]
  | succ r ihr =>
    intro a0 hr h0 hv
    have hrev : (List.range (r + 1)).reverse = r :: (List.range r).reverse := by
      rw [List.range_succ, List.reverse_append]
      rfl
    rw [hrev, List.foldl_cons]
    have hposr : order.getD r 0 < a0.length := by
      rw [h0]
      refine hmem _ ?_
      rw [List.getD_eq_getElem _ _ (by omega : r < order.length)]
      exact List.getElem_mem _
    have hvr : a0.getD (order.getD r 0) 0 = v r := by
      rw [hv r (by omega), if_neg (by omega)]
    have hvr1 : a0.getD (order.getD (r + 1) 0) 0
        = if r + 1 < m then minFromFuel v (m - 1 - (r + 1)) (r + 1)
          else a0.getD (order.getD (r + 1) 0) 0 := by
      by_cases hc : r + 1 < m
      · rw [if_pos hc, hv (r + 1) hc, if_pos (le_refl _)]
      · rw [if_neg hc]
    refine ihr _ (by omega) (by rw [List.length_set, h0]) ?_
    intro t ht
    by_cases hteq : t = r
    · subst hteq
      rw [getD_set_self _ _ _ hposr, if_pos (le_refl t)]
      have hc : t + 1 < m := by
        rcases Nat.lt_or_ge (t + 1) m with h | h
        · exact h
        · omega
      rw [hvr, hvr1, if_pos hc]
      have hfuel : m - 1 - t = (m - 1 - (t + 1)) + 1 := by omega
      rw [hfuel]
      rfl
    · have hne : order.getD r 0 ≠ order.getD t 0 :=
        getD_order_ne order hnd (by omega) (by omega) (by omega)
      rw [getD_set_other _ _ _ _ hne, hv t ht]
      by_cases htr : r ≤ t
      · rw [if_pos (by omega), if_pos htr]
      · rw [if_neg (by omega), if_neg htr]

theorem scanMaxFun_bounds (v : Nat → ℚ) (hv : ∀ t, 0 ≤ v t ∧ v t ≤ 1) :
    ∀ t, 0 ≤ scanMaxFun v t ∧ scanMaxFun v t ≤ 1 := by
  intro t
  induction t with
  | zero => exact hv 0
  | succ t ih => exact ⟨le_trans ih.1 (le_max_right _ _), max_le (hv (t + 1)).2 ih.2⟩

theorem minFromFuel_bounds (v : Nat → ℚ) (hv : ∀ t, 0 ≤ v t ∧ v t ≤ 1) :
    ∀ fl t, 0 ≤ minFromFuel v fl t ∧ minFromFuel v fl t ≤ 1 := by
  intro fl
  induction fl with
  | zero => exact fun t => hv t
  | succ fl ih =>
    intro t
    exact ⟨le_min (hv t).1 (ih (t + 1)).1, le_trans (min_le_left _ _) (hv t).2⟩

theorem minFromFuel_step (v : Nat → ℚ) (m t : Nat) (h : t + 1 < m) :
    minFromFuel v (m - 1 - t) t
      = min (v t) (minFromFuel v (m - 1 - (t + 1)) (t + 1)) := by
  have harith : m - 1 - t = (m - 1 - (t + 1)) + 1 := by omega
  rw [harith]
  rfl

theorem getD_nonneg_of_mem_bounds (p : List ℚ) (hp : ∀ x ∈ p, 0 ≤ x ∧ x ≤ 1)
    (idx : Nat) : 0 ≤ p.getD idx 0 := by
  rcases Nat.lt_or_ge idx p.length with h | h
  · rw [List.getD_eq_getElem _ _ h]
    exact (hp _ (List.getElem_mem _)).1
  · rw [List.getD_eq_default _ _ h]

/-- Claim C7.  For p-values in [0,1], `correct_pvalues`' Holm branch
multiplies the (0-based) `t`-th smallest p-value by `m - t` (i.e. the
1-based rank `i` gets factor `m - i + 1`) and clamps at 1, and its BH
branch computes `p·m/(t+1)` (i.e. `p·m/rank`) and clamps at 1; after
the left-to-right (Holm) and right-to-left (BH) monotonicity passes,
the adjusted values read along the ascending `argsort` order are
non-decreasing and every adjusted value lies in `[0, 1]`. -/
theorem C7_pvalue_corrections (p_values : List ℚ)
    (hp : ∀ x ∈ p_values, 0 ≤ x ∧ x ≤ 1) :
    (correct_pvalues p_values "holm" = .ok (holm_adjust p_values) ∧
      correct_pvalues p_values "bh" = .ok (bh_adjust p_values)) ∧
    (∀ t, t + 1 < p_values.length →
      p_values.getD ((argsort p_values).getD t 0) 0
        ≤ p_values.getD ((argsort p_values).getD (t + 1) 0) 0) ∧
    (∀ t, t < p_values.length →
      (holmFirstPass p_values).getD ((argsort p_values).getD t 0) 0
        = min (p_values.getD ((argsort p_values).getD t 0) 0
            * ((p_values.length - t : Nat) : ℚ)) 1) ∧
    (∀ t, t + 1 < p_values.length →
      (holm_adjust p_values).getD ((argsort p_values).getD t 0) 0
        ≤ (holm_adjust p_values).getD ((argsort p_values).getD (t + 1) 0) 0) ∧
    (∀ x ∈ holm_adjust p_values, 0 ≤ x ∧ x ≤ 1) ∧
    (∀ t, t < p_values.length →
      (bhFirstPass p_values).getD ((argsort p_values).getD t 0) 0
        = min (p_values.getD ((argsort p_values).getD t 0) 0
            * (p_values.length : ℚ) / ((t : ℚ) + 1)) 1) ∧
    (∀ t, t + 1 < p_values.length →
      (bh_adjust p_values).getD ((argsort p_values).getD t 0) 0
        ≤ (bh_adjust p_values).getD ((argsort p_values).getD (t + 1) 0) 0) ∧
    (∀ x ∈ bh_adjust p_values, 0 ≤ x ∧ x ≤ 1) := by
  set m := p_values.length with hm
  set order := argsort p_values with horder
  have hlen : order.length = m := argsort_length p_values
  have hnd : order.Nodup := argsort_nodup p_values
  have hmem : ∀ x ∈ order, x < m := fun x hx => argsort_mem_lt p_values hx
  set vH : Nat → ℚ := fun t =>
    min (p_values.getD (order.getD t 0) 0 * ((m - t : Nat) : ℚ)) 1 with hvH
  set vB : Nat → ℚ := fun t =>
    min (p_values.getD (order.getD t 0) 0 * (m : ℚ) / ((t : ℚ) + 1)) 1 with hvB
  have hvHb : ∀ t, 0 ≤ vH t ∧ vH t ≤ 1 := by
    intro t
    refine ⟨le_min (mul_nonneg (getD_nonneg_of_mem_bounds p_values hp _)
      (Nat.cast_nonneg _)) zero_le_one, min_le_right _ _⟩
  have hvBb : ∀ t, 0 ≤ vB t ∧ vB t ≤ 1 := by
    intro t
    refine ⟨le_min (div_nonneg (mul_nonneg (getD_nonneg_of_mem_bounds p_values hp _)
      (Nat.cast_nonneg _)) (by positivity)) zero_le_one, min_le_right _ _⟩
  -- Phase 1 (Holm): the enumerate-and-set loop hits each index once.
  have hfpH := foldl_set_distinct
    (fun i idx => min (p_values.getD idx 0 * ((m - i : Nat) : ℚ)) 1)
    order 0 (List.replicate m 0) hnd
    (by intro x hx; rw [List.length_replicate]; exact hmem x hx)
  have hlenH : (holmFirstPass p_values).length = m := by
    have := hfpH.1
    rw [List.length_replicate] at this
    exact this
  have hvalH : ∀ t, t < m →
      (holmFirstPass p_values).getD (order.getD t 0) 0 = vH t := by
    intro t ht
    have := hfpH.2.2 t (hlen ▸ ht)
    rw [Nat.zero_add] at this
    exact this
  -- Phase 1 (BH).
  have hfpB := foldl_set_distinct
    (fun i idx => min (p_values.getD idx 0 * (m : ℚ) / ((i : ℚ) + 1)) 1)
    order 0 (List.replicate m 0) hnd
    (by intro x hx; rw [List.length_replicate]; exact hmem x hx)
  have hlenB : (bhFirstPass p_values).length = m := by
    have := hfpB.1
    rw [List.length_replicate] at this
    exact this
  have hvalB : ∀ t, t < m →
      (bhFirstPass p_values).getD (order.getD t 0) 0 = vB t := by
    intro t ht
    have := hfpB.2.2 t (hlen ▸ ht)
    rw [Nat.zero_add] at this
    exact this
  -- A reusable "every member is bounded" argument.
  have hmemBound : ∀ (final : List ℚ) (w : Nat → ℚ),
      final.length = m → (∀ t, t < m → final.getD (order.getD t 0) 0 = w t) →
      (∀ t, 0 ≤ w t ∧ w t ≤ 1) → ∀ x ∈ final, 0 ≤ x ∧ x ≤ 1 := by
    intro final w hflen hfval hw x hx
    obtain ⟨⟨j, hj⟩, hget⟩ := List.mem_iff_get.1 hx
    have hjm : j < m := hflen ▸ hj
    have hjord : j ∈ order := by
      refine ((argsort_perm p_values).mem_iff).2 ?_
      exact List.mem_range.2 hjm
    obtain ⟨⟨u, hu⟩, hgu⟩ := List.mem_iff_get.1 hjord
    have hum : u < m := hlen ▸ hu
    have hju : order.getD u 0 = j := by
      rw [List.getD_eq_getElem _ _ hu]
      exact hgu
    have hx2 : x = final.getD j 0 := by
      rw [List.getD_eq_getElem _ _ hj]
      exact hget.symm
    rw [hx2, ← hju, hfval u hum]
    exact hw u
  -- Phase 2 (Holm forward clamp).
  rcases Nat.eq_zero_or_pos m with hm0 | hmpos
  · -- Empty input: both adjusted lists are empty and all quantifiers vacuous.
    have hpnil : p_values = [] := List.eq_nil_of_length_eq_zero (by omega)
    have hH : holm_adjust p_values = [] := by rw [hpnil]; rfl
    have hB : bh_adjust p_values = [] := by rw [hpnil]; rfl
    refine ⟨⟨rfl, rfl⟩, ?_, ?_, ?_, ?_, ?_, ?_, ?_⟩
    · intro t ht; omega
    · intro t ht; omega
    · intro t ht; omega
    · intro x hx; rw [hH] at hx; exact absurd hx (List.not_mem_nil x)
    · intro t ht; omega
    · intro t ht; omega
    · intro x hx; rw [hB] at hx; exact absurd hx (List.not_mem_nil x)
  · have hr1 : m - 1 < m := by omega
    have hfwd := foldl_forward_max order m vH hlen hnd hmem (m - 1)
      (holmFirstPass p_values) hr1 hlenH hvalH
    have hfoldH : holm_adjust p_values
        = (List.range (order.length - 1)).foldl
            (fun adj i' =>
              let i := i' + 1
              adj.set (order.getD i 0)
                (max (adj.getD (order.getD i 0) 0)
                  (adj.getD (order.getD (i - 1) 0) 0)))
            (holmFirstPass p_values) := rfl
    rw [hlen] at hfoldH
    have hlenHA : (holm_adjust p_values).length = m := by
      rw [hfoldH]
      exact hfwd.1
    have hvalHA : ∀ t, t < m →
        (holm_adjust p_values).getD (order.getD t 0) 0 = scanMaxFun vH t := by
      intro t ht
      rw [hfoldH, hfwd.2 t ht, if_pos (by omega)]
    -- Phase 3 (BH backward clamp).
    have hinitB : ∀ t, t < m →
        (bhFirstPass p_values).getD (order.getD t 0) 0
          = if m - 1 ≤ t then minFromFuel vB (m - 1 - t) t else vB t := by
      intro t ht
      rw [hvalB t ht]
      by_cases hc : m - 1 ≤ t
      · have : t = m - 1 := by omega
        subst this
        rw [if_pos hc]
        have hz : m - 1 - (m - 1) = 0 := by omega
        rw [hz]
        rfl
      · rw [if_neg hc]
    have hbwd := foldl_backward_min order m vB hlen hnd hmem (m - 1)
      (bhFirstPass p_values) hr1 hlenB hinitB
    have hfoldB : bh_adjust p_values
        = ((List.range (order.length - 1)).reverse).foldl
            (fun adj i =>
              adj.set (order.getD i 0)
                (min (adj.getD (order.getD i 0) 0)
                  (adj.getD (order.getD (i + 1) 0) 0)))
            (bhFirstPass p_values) := rfl
    rw [hlen] at hfoldB
    have hlenBA : (bh_adjust p_values).length = m := by
      rw [hfoldB]
      exact hbwd.1
    have hvalBA : ∀ t, t < m →
        (bh_adjust p_values).getD (order.getD t 0) 0
          = minFromFuel vB (m - 1 - t) t := by
      intro t ht
      rw [hfoldB]
      exact hbwd.2 t ht
    -- Assemble all conjuncts.
    refine ⟨⟨rfl, rfl⟩, ?_, ?_, ?_, ?_, ?_, ?_, ?_⟩
    · -- sortedness of the values along argsort
      intro t ht
      have hpw := argsort_sorted p_values
      rw [List.pairwise_iff_get] at hpw
      have h1 : t < order.length := by omega
      have h2 : t + 1 < order.length := by omega
      have := hpw ⟨t, h1⟩ ⟨t + 1, h2⟩ (by simp)
      rw [List.getD_eq_getElem _ _ h1, List.getD_eq_getElem _ _ h2]
      exact this
    · -- Holm pre-clamp values
      intro t ht
      exact hvalH t ht
    · -- Holm monotone along argsort
      intro t ht
      rw [hvalHA t (by omega), hvalHA (t + 1) (by omega)]
      exact le_max_right _ _
    · -- Holm bounds
      exact hmemBound (holm_adjust p_values) (scanMaxFun vH) hlenHA hvalHA
        (scanMaxFun_bounds vH hvHb)
    · -- BH pre-clamp values
      intro t ht
      exact hvalB t ht
    · -- BH monotone along argsort
      intro t ht
      rw [hvalBA t (by omega), hvalBA (t + 1) (by omega),
        minFromFuel_step vB m t (by omega)]
      exact min_le_right _ _
    · -- BH bounds
      exact hmemBound (bh_adjust p_values) (fun t => minFromFuel vB (m - 1 - t) t)
        hlenBA hvalBA (fun t => minFromFuel_bounds vB hvBb _ t)

/-- Witness for C7 at a concrete p-value vector. -/
theorem C7_pvalue_corrections_witness :
    (∀ x ∈ [(0:ℚ), 1, 0], 0 ≤ x ∧ x ≤ 1) ∧
    ((correct_pvalues [(0:ℚ), 1, 0] "holm" = .ok (holm_adjust [(0:ℚ), 1, 0]) ∧
      correct_pvalues [(0:ℚ), 1, 0] "bh" = .ok (bh_adjust [(0:ℚ), 1, 0])) ∧
    (∀ t, t + 1 < [(0:ℚ), 1, 0].length →
      [(0:ℚ), 1, 0].getD ((argsort [(0:ℚ), 1, 0]).getD t 0) 0
        ≤ [(0:ℚ), 1, 0].getD ((argsort [(0:ℚ), 1, 0]).getD (t + 1) 0) 0) ∧
    (∀ t, t < [(0:ℚ), 1, 0].length →
      (holmFirstPass [(0:ℚ), 1, 0]).getD ((argsort [(0:ℚ), 1, 0]).getD t 0) 0
        = min ([(0:ℚ), 1, 0].getD ((argsort [(0:ℚ), 1, 0]).getD t 0) 0
            * (([(0:ℚ), 1, 0].length - t : Nat) : ℚ)) 1) ∧
    (∀ t, t + 1 < [(0:ℚ), 1, 0].length →
      (holm_adjust [(0:ℚ), 1, 0]).getD ((argsort [(0:ℚ), 1, 0]).getD t 0) 0
        ≤ (holm_adjust [(0:ℚ), 1, 0]).getD ((argsort [(0:ℚ), 1, 0]).getD (t + 1) 0) 0) ∧
    (∀ x ∈ holm_adjust [(0:ℚ), 1, 0], 0 ≤ x ∧ x ≤ 1) ∧
    (∀ t, t < [(0:ℚ), 1, 0].length →
      (bhFirstPass [(0:ℚ), 1, 0]).getD ((argsort [(0:ℚ), 1, 0]).getD t 0) 0
        = min ([(0:ℚ), 1, 0].getD ((argsort [(0:ℚ), 1, 0]).getD t 0) 0
            * ([(0:ℚ), 1, 0].length : ℚ) / ((t : ℚ) + 1)) 1) ∧
    (∀ t, t + 1 < [(0:ℚ), 1, 0].length →
      (bh_adjust [(0:ℚ), 1, 0]).getD ((argsort [(0:ℚ), 1, 0]).getD t 0) 0
        ≤ (bh_adjust [(0:ℚ), 1, 0]).getD ((argsort [(0:ℚ), 1, 0]).getD (t + 1) 0) 0) ∧
    (∀ x ∈ bh_adjust [(0:ℚ), 1, 0], 0 ≤ x ∧ x ≤ 1)) :=
  ⟨by decide, C7_pvalue_corrections [(0:ℚ), 1, 0] (by decide)⟩

/- ── Helper lemmas for C8 ── -/

theorem zipWith_sub_comm (a b : List ℚ) :
    List.zipWith (fun x y => x - y) b a
      = (List.zipWith (fun x y => x - y) a b).map (fun x => -x) := by
  induction a generalizing b with
  | nil => cases b <;> simp
  | cons x xs ih =>
    cases b with
    | nil => simp
    | cons y ys => simp [ih ys, neg_sub]

theorem neg_ne_zero_pred :
    ((fun x => decide (x ≠ 0)) ∘ (fun x : ℚ => -x)) = fun x : ℚ => decide (x ≠ 0) := by
  funext x
  simp

theorem signedRankSum_map_neg (sign : ℚ → Bool) (d : List ℚ) :
    signedRankSum sign (d.map (fun x => -x))
      = signedRankSum (fun x => sign (-x)) d := by
  unfold signedRankSum
  have habs : (d.map (fun x => -x)).map (fun x => |x|) = d.map (fun x => |x|) := by
    rw [List.map_map]
    congr 1
    funext x
    exact abs_neg x
  rw [habs, List.zip_map_left, List.filter_map, List.map_map]
  have hf : (Prod.snd ∘ Prod.map (fun x : ℚ => -x) (id : ℚ → ℚ))
      = (Prod.snd : ℚ × ℚ → ℚ) := by
    funext pr
    cases pr
    rfl
  have hp : ((fun pr : ℚ × ℚ => sign pr.1) ∘ Prod.map (fun x => -x) id)
      = fun pr : ℚ × ℚ => sign (-pr.1) := by
    funext pr
    cases pr
    rfl
  rw [hf, hp]

theorem wilcoxon_else (pfun : ℚ → List ℚ → ℚ) (t1 t2 : List ℚ)
    (h : ¬((List.zipWith (fun a b => a - b) t1 t2).countP
        (fun x => decide (x ≠ 0)) < 6)) :
    wilcoxon_test pfun t1 t2 =
      { test_name := "Wilcoxon Signed-Rank",
        statistic := wilcoxonStat t1 t2,
        p_value := pfun (wilcoxonStat t1 t2) (wilcoxonAbsDiff t1 t2),
        significant_005 :=
          decide (pfun (wilcoxonStat t1 t2) (wilcoxonAbsDiff t1 t2) < 5 / 100),
        significant_001 :=
          decide (pfun (wilcoxonStat t1 t2) (wilcoxonAbsDiff t1 t2) < 1 / 100),
        effect_size := some (wilcoxonEffect t1 t2),
        description := "Non-parametric paired test" } := by
  simp only [wilcoxon_test]
  rw [if_neg h]
  rfl

theorem wilcoxonNonzeroDiff_swap (t1 t2 : List ℚ) :
    wilcoxonNonzeroDiff t2 t1 = (wilcoxonNonzeroDiff t1 t2).map (fun x => -x) := by
  unfold wilcoxonNonzeroDiff
  rw [zipWith_sub_comm, List.filter_map, neg_ne_zero_pred]

theorem wilcoxonAbsDiff_swap (t1 t2 : List ℚ) :
    wilcoxonAbsDiff t2 t1 = wilcoxonAbsDiff t1 t2 := by
  unfold wilcoxonAbsDiff
  rw [wilcoxonNonzeroDiff_swap, List.map_map]
  congr 1
  funext x
  exact abs_neg x

theorem wilcoxonStat_swap (t1 t2 : List ℚ) :
    wilcoxonStat t2 t1 = wilcoxonStat t1 t2 := by
  unfold wilcoxonStat
  rw [wilcoxonNonzeroDiff_swap, signedRankSum_map_neg, signedRankSum_map_neg]
  have h1 : (fun x : ℚ => decide (0 < -x)) = fun x : ℚ => decide (x < 0) := by
    funext x
    simp
  have h2 : (fun x : ℚ => decide (-x < 0)) = fun x : ℚ => decide (0 < x) := by
    funext x
    simp
  rw [h1, h2, min_comm]

/-- Claim C8, counterexample.  At `times1 = [1,…,6]`,
`times2 = [0,…,0]` (six non-zero differences), both orders report the
rank-biserial effect size `1`: the sign does not flip, because the
statistic fed into `r = 1 - 2·stat/(n(n+1)/2)` is scipy's two-sided
`min(R+, R-)`, which is symmetric under swapping the samples. -/
theorem C8_counterexample_no_sign_flip :
    (6 ≤ (List.zipWith (fun a b => a - b) ([1, 2, 3, 4, 5, 6] : List ℚ)
        [0, 0, 0, 0, 0, 0]).countP (fun x => decide (x ≠ 0))) ∧
    (wilcoxon_test (fun _ _ => 1) [1, 2, 3, 4, 5, 6]
        [0, 0, 0, 0, 0, 0]).effect_size = some 1 ∧
    (wilcoxon_test (fun _ _ => 1) [0, 0, 0, 0, 0, 0]
        [1, 2, 3, 4, 5, 6]).effect_size = some 1 ∧
    ¬((1 : ℚ) = -1) := by
  refine ⟨by simp [List.countP, List.countP.go], ?_, ?_, by norm_num⟩
  · rw [wilcoxon_else _ _ _ (by simp [List.countP, List.countP.go])]
    simp only [TestResult.effect_size]
    norm_num [wilcoxonEffect, wilcoxonStat, wilcoxonNonzeroDiff, signedRankSum,
      ranksAbs, List.countP, List.countP.go, List.zipWith, List.filter, List.zip,
      List.zipWith_cons_cons]
  · rw [wilcoxon_else _ _ _ (by simp [List.countP, List.countP.go])]
    simp only [TestResult.effect_size]
    norm_num [wilcoxonEffect, wilcoxonStat, wilcoxonNonzeroDiff, signedRankSum,
      ranksAbs, List.countP, List.countP.go, List.zipWith, List.filter, List.zip,
      List.zipWith_cons_cons]

/-- Claim C8 as amended: for equal-length paired arrays with at least
6 non-zero differences, `wilcoxon_test(a, b)` and `wilcoxon_test(b, a)`
return the identical p-value and the identical (not sign-flipped)
effect size, for every possible p-value function of the external scipy
call. -/
theorem C8_wilcoxon_swap (pfun : ℚ → List ℚ → ℚ) (times1 times2 : List ℚ)
    (hlen : times1.length = times2.length)
    (h6 : 6 ≤ (List.zipWith (fun a b => a - b) times1 times2).countP
        (fun x => decide (x ≠ 0))) :
    (wilcoxon_test pfun times1 times2).p_value
        = (wilcoxon_test pfun times2 times1).p_value ∧
    (wilcoxon_test pfun times1 times2).effect_size
        = (wilcoxon_test pfun times2 times1).effect_size := by
  have hc : (List.zipWith (fun a b => a - b) times2 times1).countP
      (fun x => decide (x ≠ 0))
      = (List.zipWith (fun a b => a - b) times1 times2).countP
        (fun x => decide (x ≠ 0)) := by
    rw [zipWith_sub_comm, List.countP_map, neg_ne_zero_pred]
  rw [wilcoxon_else pfun times1 times2 (by omega),
    wilcoxon_else pfun times2 times1 (by omega)]
  have hstat := wilcoxonStat_swap times1 times2
  have habs := wilcoxonAbsDiff_swap times1 times2
  constructor
  · simp only [hstat, habs]
  · simp only [wilcoxonEffect, hstat, habs, hlen]

/-- Witness for C8 at concrete arrays with six non-zero differences. -/
theorem C8_wilcoxon_swap_witness :
    (([1, 2, 3, 4, 5, 6] : List ℚ).length
        = ([0, 0, 0, 0, 0, 0] : List ℚ).length) ∧
    (6 ≤ (List.zipWith (fun a b => a - b) ([1, 2, 3, 4, 5, 6] : List ℚ)
        [0, 0, 0, 0, 0, 0]).countP (fun x => decide (x ≠ 0))) ∧
    ((wilcoxon_test (fun _ _ => 1) [1, 2, 3, 4, 5, 6]
          [0, 0, 0, 0, 0, 0]).p_value
        = (wilcoxon_test (fun _ _ => 1) [0, 0, 0, 0, 0, 0]
          [1, 2, 3, 4, 5, 6]).p_value ∧
      (wilcoxon_test (fun _ _ => 1) [1, 2, 3, 4, 5, 6]
          [0, 0, 0, 0, 0, 0]).effect_size
        = (wilcoxon_test (fun _ _ => 1) [0, 0, 0, 0, 0, 0]
          [1, 2, 3, 4, 5, 6]).effect_size) :=
  ⟨rfl, by simp [List.countP, List.countP.go],
    C8_wilcoxon_swap (fun _ _ => 1) [1, 2, 3, 4, 5, 6] [0, 0, 0, 0, 0, 0]
      rfl (by simp [List.countP, List.countP.go])⟩

/- ── Basic state lemmas for the compiler ── -/

theorem litSat_pos (σ : Nat → Bool) (id : Nat) (h : 1 ≤ id) :
    litSat σ (id : Int) = σ id := by
  have hpos : (0 : Int) < (id : Int) := by exact_mod_cast h
  simp [litSat, hpos]

theorem litSat_neg (σ : Nat → Bool) (id : Nat) (h : 1 ≤ id) :
    litSat σ (-(id : Int)) = !(σ id) := by
  have hpos : ¬((0 : Int) < -(id : Int)) := by
    simp
  simp [litSat, hpos]

theorem lookup_append_left {vm t : List (String × Nat)} {k : String} {v : Nat}
    (h : vm.lookup k = some v) : (vm ++ t).lookup k = some v := by
  induction vm with
  | nil => simp [List.lookup] at h
  | cons p rest ih =>
    rcases p with ⟨a, b⟩
    rw [List.cons_append]
    cases hk : (k == a) with
    | true =>
      simp only [List.lookup, hk] at h ⊢
      exact h
    | false =>
      simp only [List.lookup, hk] at h ⊢
      exact ih h

theorem lookup_append_none {vm t : List (String × Nat)} {k : String}
    (h : vm.lookup k = none) : (vm ++ t).lookup k = t.lookup k := by
  induction vm with
  | nil => simp
  | cons p rest ih =>
    rcases p with ⟨a, b⟩
    rw [List.cons_append]
    cases hk : (k == a) with
    | true =>
      simp only [List.lookup, hk] at h
      exact absurd h (by simp)
    | false =>
      simp only [List.lookup, hk] at h ⊢
      exact ih h

theorem stExt_refl (s : CNFCompiler) : StExt s s :=
  ⟨le_refl _, ⟨[], by simp⟩, ⟨[], by simp⟩⟩

theorem stExt_trans {s1 s2 s3 : CNFCompiler} (h1 : StExt s1 s2)
    (h2 : StExt s2 s3) : StExt s1 s3 := by
  obtain ⟨hn1, ⟨t1, hv1⟩, ⟨u1, hc1⟩⟩ := h1
  obtain ⟨hn2, ⟨t2, hv2⟩, ⟨u2, hc2⟩⟩ := h2
  exact ⟨le_trans hn1 hn2, ⟨t1 ++ t2, by rw [hv2, hv1, List.append_assoc]⟩,
    ⟨u1 ++ u2, by rw [hc2, hc1, List.append_assoc]⟩⟩

theorem stExt_clause_mem {s s' : CNFCompiler} (h : StExt s s')
    {c : List Int} (hc : c ∈ s.clauses) : c ∈ s'.clauses := by
  obtain ⟨_, _, ⟨u, hu⟩⟩ := h
  rw [hu]
  exact List.mem_append_left _ hc

theorem stExt_lookup {s s' : CNFCompiler} (h : StExt s s') {k : String}
    {v : Nat} (hl : s.var_map.lookup k = some v) :
    s'.var_map.lookup k = some v := by
  obtain ⟨_, ⟨t, ht⟩, _⟩ := h
  rw [ht]
  exact lookup_append_left hl

theorem negOk_stable {s s' : CNFCompiler} (h : StExt s s') {v : String}
    (hn : NegOk s v) : NegOk s' v := by
  obtain ⟨nid, oid, h1, h2, h3, h4⟩ := hn
  exact ⟨nid, oid, stExt_lookup h h1, stExt_lookup h h2,
    stExt_clause_mem h h3, stExt_clause_mem h h4⟩

theorem mem_of_lookup_eq_some {vm : List (String × Nat)} {k : String} {v : Nat}
    (h : vm.lookup k = some v) : (k, v) ∈ vm := by
  induction vm with
  | nil => simp [List.lookup] at h
  | cons p rest ih =>
    rcases p with ⟨a, b⟩
    by_cases hk : k = a
    · subst hk
      simp only [List.lookup, beq_self_eq_true] at h
      have hbv : b = v := by simpa using h
      rw [hbv]
      exact List.mem_cons_self _ _
    · have hbeq : (k == a) = false := beq_eq_false_iff_ne.mpr hk
      simp only [List.lookup, hbeq] at h
      exact List.mem_cons_of_mem _ (ih h)

theorem var_id_spec (name : String) (s : CNFCompiler) :
    StExt s (var_id name s).2 ∧
    (var_id name s).2.var_map.lookup name = some (var_id name s).1 ∧
    (WFState s → WFState (var_id name s).2 ∧
      1 ≤ (var_id name s).1 ∧ (var_id name s).1 < (var_id name s).2.next_id) ∧
    (∀ declared, (name ∈ declared ∨ ∃ w, name = "__neg_" ++ w) →
      KeysOk declared s → KeysOk declared (var_id name s).2) := by
  cases hl : s.var_map.lookup name with
  | some i =>
    have hv : var_id name s = (i, s) := by
      unfold var_id
      rw [hl]
    rw [hv]
    refine ⟨stExt_refl s, hl, fun hwf => ?_, fun declared _ hk => hk⟩
    have hmem := mem_of_lookup_eq_some hl
    exact ⟨hwf, (hwf.vm _ hmem).1, (hwf.vm _ hmem).2⟩
  | none =>
    have hv : var_id name s = (s.next_id,
        ⟨s.var_map ++ [(name, s.next_id)], s.next_id + 1, s.clauses⟩) := by
      unfold var_id
      rw [hl]
    rw [hv]
    refine ⟨⟨Nat.le_succ _, ⟨[(name, s.next_id)], rfl⟩, ⟨[], by simp⟩⟩, ?_, ?_, ?_⟩
    · rw [show CNFCompiler.var_map
          ⟨s.var_map ++ [(name, s.next_id)], s.next_id + 1, s.clauses⟩
          = s.var_map ++ [(name, s.next_id)] from rfl, lookup_append_none hl]
      simp [List.lookup]
    · intro hwf
      refine ⟨⟨le_trans hwf.nid (Nat.le_succ _), ?_, ?_⟩, hwf.nid, Nat.lt_succ_self _⟩
      · intro p hp
        rcases List.mem_append.1 hp with hp | hp
        · have h2 := hwf.vm p hp
          exact ⟨h2.1, lt_trans h2.2 (Nat.lt_succ_self _)⟩
        · have hp2 : p = (name, s.next_id) := by simpa using hp
          rw [hp2]
          exact ⟨hwf.nid, Nat.lt_succ_self _⟩
      · intro c hc l hlmem
        have h2 := hwf.cl c hc l hlmem
        exact ⟨h2.1, lt_trans h2.2 (Nat.lt_succ_self _)⟩
    · intro declared hdecl hk p hp
      rcases List.mem_append.1 hp with hp | hp
      · exact hk p hp
      · have hp2 : p = (name, s.next_id) := by simpa using hp
        rw [hp2]
        rcases hdecl with hdecl | ⟨w, hw⟩
        · exact Or.inl hdecl
        · exact Or.inr ⟨w, hw⟩

theorem mkAux_spec (s : CNFCompiler) :
    StExt s (mkAux s).2 ∧ (mkAux s).1 = s.next_id ∧
    (mkAux s).2.next_id = s.next_id + 1 ∧
    (WFState s → WFState (mkAux s).2 ∧ 1 ≤ (mkAux s).1 ∧
      (mkAux s).1 < (mkAux s).2.next_id) ∧
    (∀ declared, KeysOk declared s → KeysOk declared (mkAux s).2) := by
  refine ⟨⟨Nat.le_succ _, ⟨[], by simp [mkAux]⟩, ⟨[], by simp [mkAux]⟩⟩,
    rfl, rfl, fun hwf => ?_, fun declared hk => hk⟩
  refine ⟨⟨le_trans hwf.nid (Nat.le_succ _), ?_, ?_⟩, hwf.nid, Nat.lt_succ_self _⟩
  · intro p hp
    have h2 := hwf.vm p hp
    exact ⟨h2.1, lt_trans h2.2 (Nat.lt_succ_self _)⟩
  · intro c hc l hlmem
    have h2 := hwf.cl c hc l hlmem
    exact ⟨h2.1, lt_trans h2.2 (Nat.lt_succ_self _)⟩

theorem add_clause_spec (c : List Int) (s : CNFCompiler) :
    StExt s (add_clause c s) ∧ (add_clause c s).next_id = s.next_id ∧
    c ∈ (add_clause c s).clauses ∧
    (add_clause c s).var_map = s.var_map ∧
    (WFState s → (∀ l ∈ c, l ≠ 0 ∧ l.natAbs < s.next_id) →
      WFState (add_clause c s)) ∧
    (∀ declared, KeysOk declared s → KeysOk declared (add_clause c s)) := by
  refine ⟨⟨le_refl _, ⟨[], by simp [add_clause]⟩, ⟨[c], rfl⟩⟩, rfl,
    List.mem_append_right _ (List.mem_singleton.2 rfl), rfl,
    fun hwf hc => ⟨hwf.nid, hwf.vm, ?_⟩, fun declared hk => hk⟩
  intro c' hc' l hl
  rcases List.mem_append.1 hc' with hc' | hc'
  · exact hwf.cl c' hc' l hl
  · have : c' = c := by simpa using hc'
    rw [this] at hl
    exact hc l hl

theorem addAll_spec (cs : List (List Int)) :
    ∀ (s : CNFCompiler),
      StExt s (addAll cs s) ∧ (addAll cs s).next_id = s.next_id ∧
      (addAll cs s).var_map = s.var_map ∧
      (addAll cs s).clauses = s.clauses ++ cs ∧
      (WFState s → (∀ c ∈ cs, ∀ l ∈ c, l ≠ 0 ∧ l.natAbs < s.next_id) →
        WFState (addAll cs s)) := by
  induction cs with
  | nil =>
    intro s
    exact ⟨stExt_refl s, rfl, rfl, by simp [addAll], fun hwf _ => hwf⟩
  | cons c rest ih =>
    intro s
    have hstep : addAll (c :: rest) s = addAll rest (add_clause c s) := rfl
    obtain ⟨hext, hnid, hvm, hcl, hwfp⟩ := ih (add_clause c s)
    obtain ⟨hext1, hnid1, _, hvm1, hwf1, _⟩ := add_clause_spec c s
    rw [hstep]
    refine ⟨stExt_trans hext1 hext, by rw [hnid, hnid1],
      by rw [hvm, hvm1], ?_, ?_⟩
    · rw [hcl]
      show (s.clauses ++ [c]) ++ rest = s.clauses ++ c :: rest
      simp
    · intro hwf hall
      refine hwfp (hwf1 hwf (hall c (List.mem_cons_self _ _))) ?_
      intro c' hc' l hl
      have := hall c' (List.mem_cons_of_mem _ hc') l hl
      rw [show (add_clause c s).next_id = s.next_id from rfl]
      exact this

theorem var_id_eq_spec {name : String} {s : CNFCompiler} {i : Nat}
    {s1 : CNFCompiler} (h : var_id name s = (i, s1)) :
    StExt s s1 ∧ s1.var_map.lookup name = some i ∧
    (WFState s → WFState s1 ∧ 1 ≤ i ∧ i < s1.next_id) ∧
    (∀ declared, (name ∈ declared ∨ ∃ w, name = "__neg_" ++ w) →
      KeysOk declared s → KeysOk declared s1) := by
  have hs := var_id_spec name s
  rw [h] at hs
  exact hs

theorem mkAux_eq_spec {s : CNFCompiler} {a : Nat} {s1 : CNFCompiler}
    (h : mkAux s = (a, s1)) :
    StExt s s1 ∧ a = s.next_id ∧ s1.next_id = s.next_id + 1 ∧
    s1.var_map = s.var_map ∧ s1.clauses = s.clauses ∧
    (WFState s → WFState s1 ∧ 1 ≤ a ∧ a < s1.next_id) ∧
    (∀ declared, KeysOk declared s → KeysOk declared s1) := by
  have hs := mkAux_spec s
  rw [h] at hs
  obtain ⟨h1, h2, h3, h4, h5⟩ := hs
  have hs1 : s1 = { s with next_id := s.next_id + 1 } :=
    (congrArg Prod.snd h).symm
  refine ⟨h1, h2, h3, ?_, ?_, h4, h5⟩
  · rw [hs1]
  · rw [hs1]

theorem getLits_spec (vn : List String) :
    ∀ (declared : List String) (s : CNFCompiler) (lits : List Nat)
      (s' : CNFCompiler), getLits vn declared s = .ok (lits, s') →
      StExt s s' ∧
      lits = vn.map (fun v => (s'.var_map.lookup v).getD 0) ∧
      (∀ v ∈ vn, v ∈ declared) ∧
      (WFState s → WFState s' ∧ ∀ l ∈ lits, 1 ≤ l ∧ l < s'.next_id) ∧
      (∀ declared2, (∀ v ∈ vn, v ∈ declared2 ∨ ∃ w, v = "__neg_" ++ w) →
        KeysOk declared2 s → KeysOk declared2 s') := by
  induction vn with
  | nil =>
    intro declared s lits s' h
    simp only [getLits] at h
    cases h
    exact ⟨stExt_refl s, rfl, by simp, fun hwf => ⟨hwf, by simp⟩,
      fun declared2 _ hk => hk⟩
  | cons v rest ih =>
    intro declared s lits s' h
    simp only [getLits] at h
    by_cases hv : v ∈ declared
    · rw [if_pos hv] at h
      rcases hvar : var_id v s with ⟨i, s1⟩
      rw [hvar] at h
      cases hrest : getLits rest declared s1 with
      | error e =>
        rw [hrest] at h
        cases h
      | ok pr =>
        rcases pr with ⟨is, s2⟩
        rw [hrest] at h
        rw [Except.ok.injEq, Prod.mk.injEq] at h
        obtain ⟨h1, h2⟩ := h
        subst h1
        subst h2
        obtain ⟨ih_ext, ih_map, ih_decl, ih_wf, ih_keys⟩ :=
          ih declared s1 is s2 hrest
        obtain ⟨hv_ext, hv_lookup, hv_wf, hv_keys⟩ := var_id_eq_spec hvar
        refine ⟨stExt_trans hv_ext ih_ext, ?_, ?_, ?_, ?_⟩
        · have hstable : s2.var_map.lookup v = some i := stExt_lookup ih_ext hv_lookup
          rw [List.map_cons, hstable, ← ih_map]
          rfl
        · intro v' hv'
          rcases List.mem_cons.1 hv' with hv' | hv'
          · rw [hv']
            exact hv
          · exact ih_decl v' hv'
        · intro hwf
          obtain ⟨hwf1, hi1, hi2⟩ := hv_wf hwf
          obtain ⟨hwf2, hbounds⟩ := ih_wf hwf1
          refine ⟨hwf2, ?_⟩
          intro l hl
          rcases List.mem_cons.1 hl with hl | hl
          · rw [hl]
            exact ⟨hi1, lt_of_lt_of_le hi2 ih_ext.1⟩
          · exact hbounds l hl
        · intro declared2 hd hk
          exact ih_keys declared2 (fun w hw => hd w (List.mem_cons_of_mem _ hw))
            (hv_keys declared2 (hd v (List.mem_cons_self _ _)) hk)
    · rw [if_neg hv] at h
      cases h

theorem mem_combinations_sublist {α : Type} :
    ∀ (l : List α) (n : Nat) (c : List α), c ∈ combinations n l →
      c.Sublist l ∧ c.length = n := by
  intro l
  induction l with
  | nil =>
    intro n c hc
    cases n with
    | zero =>
      have : c = [] := by simpa [combinations] using hc
      rw [this]
      exact ⟨List.Sublist.refl _, rfl⟩
    | succ n => simp [combinations] at hc
  | cons x xs ih =>
    intro n c hc
    cases n with
    | zero =>
      have : c = [] := by simpa [combinations] using hc
      rw [this]
      exact ⟨List.nil_sublist _, rfl⟩
    | succ n =>
      simp only [combinations, List.mem_append, List.mem_map] at hc
      rcases hc with ⟨c', hc', hxc⟩ | hc
      · obtain ⟨hsub, hlen⟩ := ih n c' hc'
        rw [← hxc]
        exact ⟨hsub.cons₂ x, by simp [hlen]⟩
      · obtain ⟨hsub, hlen⟩ := ih (n + 1) c hc
        exact ⟨hsub.cons x, hlen⟩

theorem sublist_mem_combinations {α : Type} {c l : List α} (h : c.Sublist l) :
    c ∈ combinations c.length l := by
  induction h with
  | slnil => simp [combinations]
  | @cons c' l' a hsub ih =>
    cases hlen : c'.length with
    | zero =>
      have hnil : c' = [] := List.length_eq_zero.1 hlen
      rw [hnil]
      simp [combinations]
    | succ n =>
      simp only [combinations, List.mem_append]
      right
      rw [← hlen]
      exact ih
  | @cons₂ c' l' a hsub ih =>
    simp only [List.length_cons, combinations, List.mem_append, List.mem_map]
    exact Or.inl ⟨c', ih, rfl⟩

theorem mkAuxRow_spec : ∀ (m : Nat) (s : CNFCompiler),
    (mkAuxRow m s).1 = (List.range m).map (fun j => s.next_id + j) ∧
    (mkAuxRow m s).2.var_map = s.var_map ∧
    (mkAuxRow m s).2.clauses = s.clauses ∧
    (mkAuxRow m s).2.next_id = s.next_id + m := by
  intro m
  induction m with
  | zero => intro s; exact ⟨by simp [mkAuxRow], rfl, rfl, rfl⟩
  | succ m ih =>
    intro s
    obtain ⟨ih1, ih2, ih3, ih4⟩ := ih { s with next_id := s.next_id + 1 }
    dsimp only at ih1 ih2 ih3 ih4
    have h1 : (mkAuxRow (m + 1) s).1
        = s.next_id :: (mkAuxRow m { s with next_id := s.next_id + 1 }).1 := rfl
    have h2 : (mkAuxRow (m + 1) s).2
        = (mkAuxRow m { s with next_id := s.next_id + 1 }).2 := rfl
    refine ⟨?_, ?_, ?_, ?_⟩
    · rw [h1, ih1, List.range_succ_eq_map, List.map_cons, List.map_map]
      refine congrArg₂ List.cons (by omega) ?_
      congr 1
      funext j
      show s.next_id + 1 + j = s.next_id + (j + 1)
      omega
    · rw [h2, ih2]
    · rw [h2, ih3]
    · rw [h2, ih4]
      omega

theorem mkAuxMatrix_spec : ∀ (n k : Nat) (s : CNFCompiler),
    (mkAuxMatrix n k s).2.var_map = s.var_map ∧
    (mkAuxMatrix n k s).2.clauses = s.clauses ∧
    (mkAuxMatrix n k s).2.next_id = s.next_id + n * k ∧
    (∀ i j, i < n → j < k →
      regAt (mkAuxMatrix n k s).1 i j = s.next_id + i * k + j) := by
  intro n
  induction n with
  | zero =>
    intro k s
    refine ⟨rfl, rfl, ?_, fun i j hi _ => absurd hi (by omega)⟩
    show s.next_id = s.next_id + 0 * k
    omega
  | succ n ih =>
    intro k s
    obtain ⟨hr1, hr2, hr3, hr4⟩ := mkAuxRow_spec k s
    obtain ⟨ih1, ih2, ih3, ih4⟩ := ih k (mkAuxRow k s).2
    have h1 : (mkAuxMatrix (n + 1) k s).1
        = (mkAuxRow k s).1 :: (mkAuxMatrix n k (mkAuxRow k s).2).1 := rfl
    have h2 : (mkAuxMatrix (n + 1) k s).2
        = (mkAuxMatrix n k (mkAuxRow k s).2).2 := rfl
    refine ⟨by rw [h2, ih1, hr2], by rw [h2, ih2, hr3], ?_, ?_⟩
    · rw [h2, ih3, hr4]
      ring
    · intro i j hi hj
      cases i with
      | zero =>
        rw [h1]
        unfold regAt
        rw [List.getD_cons_zero, hr1,
          List.getD_eq_getElem _ _ (by simpa using hj), List.getElem_map,
          List.getElem_range]
        omega
      | succ i =>
        rw [h1]
        unfold regAt
        rw [List.getD_cons_succ]
        have hiv := ih4 i j (by omega) hj
        unfold regAt at hiv
        rw [hiv, hr4]
        ring

theorem add_clause_clauses (c : List Int) (s : CNFCompiler) :
    (add_clause c s).clauses = s.clauses ++ [c] := rfl

theorem atmost_pairwise_spec (k : Nat) (lits : List Nat) (s : CNFCompiler) :
    (atmost_pairwise k lits s).1 = (s.next_id : Int) ∧
    (atmost_pairwise k lits s).2.var_map = s.var_map ∧
    (atmost_pairwise k lits s).2.next_id = s.next_id + 1 ∧
    (atmost_pairwise k lits s).2.clauses
      = s.clauses
        ++ ((combinations (k + 1) lits).map
            (fun combo => (-(s.next_id : Int)) :: combo.map (fun l : Nat => -(l : Int))))
        ++ [(s.next_id : Int) :: lits.map (fun l : Nat => (l : Int))] := by
  have hunf : atmost_pairwise k lits s
      = ((s.next_id : Int),
         add_clause ((s.next_id : Int) :: lits.map (fun l : Nat => (l : Int)))
           (addAll ((combinations (k + 1) lits).map
               (fun combo => (-(s.next_id : Int)) :: combo.map (fun l : Nat => -(l : Int))))
             { s with next_id := s.next_id + 1 })) := by
    unfold atmost_pairwise
    rw [show mkAux s = (s.next_id, { s with next_id := s.next_id + 1 }) from rfl]
  rw [hunf]
  obtain ⟨_, hnid, hvm, hcl, _⟩ := addAll_spec
    ((combinations (k + 1) lits).map
      (fun combo => (-(s.next_id : Int)) :: combo.map (fun l : Nat => -(l : Int))))
    { s with next_id := s.next_id + 1 }
  refine ⟨rfl, ?_, ?_, ?_⟩
  · show (addAll _ _).var_map = s.var_map
    rw [hvm]
  · show (addAll _ _).next_id = s.next_id + 1
    rw [hnid]
  · rw [add_clause_clauses, hcl]

theorem int_pos_bound {id B : Nat} (h : 1 ≤ id ∧ id < B) :
    (id : Int) ≠ 0 ∧ ((id : Int)).natAbs < B := by
  constructor
  · exact_mod_cast Nat.pos_iff_ne_zero.1 h.1
  · simpa using h.2

theorem int_neg_bound {id B : Nat} (h : 1 ≤ id ∧ id < B) :
    -(id : Int) ≠ 0 ∧ (-(id : Int)).natAbs < B := by
  constructor
  · simpa using int_pos_bound h |>.1
  · simpa using h.2

theorem litAt_bound {lits : List Nat} {B : Nat} (i : Nat) (hi : i < lits.length)
    (hl : ∀ l ∈ lits, 1 ≤ l ∧ l < B) :
    1 ≤ lits.getD i 0 ∧ lits.getD i 0 < B := by
  rw [List.getD_eq_getElem _ _ hi]
  exact hl _ (List.getElem_mem _)

theorem atmost_pairwise_wf (k : Nat) (lits : List Nat) (s : CNFCompiler)
    (hwf : WFState s) (hl : ∀ l ∈ lits, 1 ≤ l ∧ l < s.next_id) :
    WFState (atmost_pairwise k lits s).2 := by
  obtain ⟨_, hvm, hnid, hcl⟩ := atmost_pairwise_spec k lits s
  refine ⟨by omega, ?_, ?_⟩
  · rw [hvm, hnid]
    intro p hp
    have h2 := hwf.vm p hp
    exact ⟨h2.1, by omega⟩
  · rw [hcl, hnid]
    intro c hc l hlm
    rcases List.mem_append.1 hc with hc | hc
    · rcases List.mem_append.1 hc with hc | hc
      · have h2 := hwf.cl c hc l hlm
        exact ⟨h2.1, by omega⟩
      · obtain ⟨combo, hcombo, hceq⟩ := List.mem_map.1 hc
        rw [← hceq] at hlm
        rcases List.mem_cons.1 hlm with hlm | hlm
        · rw [hlm]
          exact int_neg_bound ⟨hwf.nid, by omega⟩
        · obtain ⟨x, hx, hxl⟩ := List.mem_map.1 hlm
          have hxin : x ∈ lits :=
            ((mem_combinations_sublist lits (k + 1) combo hcombo).1).subset hx
          rw [← hxl]
          have h2 := hl x hxin
          exact int_neg_bound ⟨h2.1, by omega⟩
    · have hceq : c = (s.next_id : Int) :: lits.map (fun l : Nat => (l : Int)) := by
        simpa using hc
      rw [hceq] at hlm
      rcases List.mem_cons.1 hlm with hlm | hlm
      · rw [hlm]
        exact int_pos_bound ⟨hwf.nid, by omega⟩
      · obtain ⟨x, hx, hxl⟩ := List.mem_map.1 hlm
        rw [← hxl]
        have h2 := hl x hx
        exact int_pos_bound ⟨h2.1, by omega⟩

theorem litAt_ok {lits : List Nat} {B i : Nat} (hi : i < lits.length)
    (hl : ∀ l ∈ lits, 1 ≤ l ∧ l < B) :
    (litAt lits i ≠ 0 ∧ (litAt lits i).natAbs < B) ∧
    (-(litAt lits i) ≠ 0 ∧ (-(litAt lits i)).natAbs < B) := by
  have h := litAt_bound i hi hl
  exact ⟨int_pos_bound h, int_neg_bound h⟩

theorem regLit_ok {R : List (List Nat)} {B a b : Nat}
    (h : 1 ≤ regAt R a b ∧ regAt R a b < B) :
    (regLit R a b ≠ 0 ∧ (regLit R a b).natAbs < B) ∧
    (-(regLit R a b) ≠ 0 ∧ (-(regLit R a b)).natAbs < B) :=
  ⟨int_pos_bound h, int_neg_bound h⟩

theorem seqRowClauses_wf {k B : Nat} {lits : List Nat} {R : List (List Nat)}
    {i : Nat} (hin : i < lits.length) (hk : 1 ≤ k)
    (hl : ∀ l ∈ lits, 1 ≤ l ∧ l < B)
    (hreg : ∀ a b, a < lits.length → b < k →
      1 ≤ regAt R a b ∧ regAt R a b < B) :
    ∀ c ∈ seqRowClauses k lits R i, ∀ l ∈ c, l ≠ 0 ∧ l.natAbs < B := by
  intro c hc
  have hlit := litAt_ok hin hl
  have hreg₁ := fun b hb => regLit_ok (hreg i b hin hb)
  have hreg₂ := fun b hb => regLit_ok (hreg (i - 1) b (by omega) hb)
  simp only [seqRowClauses, List.mem_append, List.mem_cons, List.mem_flatMap,
    List.mem_range, List.not_mem_nil, or_false] at hc
  rcases hc with ((rfl | rfl | rfl) | ⟨j', hj', (rfl | rfl | rfl | rfl)⟩) | rfl
  · intro l hlm
    rcases (by simpa using hlm :
        l = -(litAt lits i) ∨ l = regLit R i 0) with rfl | rfl
    · exact hlit.2
    · exact (hreg₁ 0 hk).1
  · intro l hlm
    rcases (by simpa using hlm :
        l = -(regLit R (i - 1) 0) ∨ l = regLit R i 0) with rfl | rfl
    · exact (hreg₂ 0 hk).2
    · exact (hreg₁ 0 hk).1
  · intro l hlm
    rcases (by simpa using hlm :
        l = litAt lits i ∨ l = regLit R (i - 1) 0 ∨ l = -(regLit R i 0))
      with rfl | rfl | rfl
    · exact hlit.1
    · exact (hreg₂ 0 hk).1
    · exact (hreg₁ 0 hk).2
  · intro l hlm
    rcases (by simpa using hlm :
        l = -(litAt lits i) ∨ l = -(regLit R (i - 1) (j' + 1 - 1)) ∨
          l = regLit R i (j' + 1)) with rfl | rfl | rfl
    · exact hlit.2
    · exact (hreg₂ (j' + 1 - 1) (by omega)).2
    · exact (hreg₁ (j' + 1) (by omega)).1
  · intro l hlm
    rcases (by simpa using hlm :
        l = -(regLit R (i - 1) (j' + 1)) ∨ l = regLit R i (j' + 1))
      with rfl | rfl
    · exact (hreg₂ (j' + 1) (by omega)).2
    · exact (hreg₁ (j' + 1) (by omega)).1
  · intro l hlm
    rcases (by simpa using hlm :
        l = litAt lits i ∨ l = regLit R (i - 1) (j' + 1) ∨
          l = -(regLit R i (j' + 1))) with rfl | rfl | rfl
    · exact hlit.1
    · exact (hreg₂ (j' + 1) (by omega)).1
    · exact (hreg₁ (j' + 1) (by omega)).2
  · intro l hlm
    rcases (by simpa using hlm :
        l = regLit R (i - 1) (j' + 1 - 1) ∨ l = -(regLit R i (j' + 1)))
      with rfl | rfl
    · exact (hreg₂ (j' + 1 - 1) (by omega)).1
    · exact (hreg₁ (j' + 1) (by omega)).2
  · intro l hlm
    rcases (by simpa using hlm :
        l = -(litAt lits i) ∨ l = -(regLit R (i - 1) (k - 1)))
      with rfl | rfl
    · exact hlit.2
    · exact (hreg₂ (k - 1) (by omega)).2

theorem seqClauses_wf {k B n : Nat} {lits : List Nat} {R : List (List Nat)}
    (hn : 0 < n) (hnle : n ≤ lits.length) (hk : 1 ≤ k)
    (hl : ∀ l ∈ lits, 1 ≤ l ∧ l < B)
    (hreg : ∀ a b, a < lits.length → b < k →
      1 ≤ regAt R a b ∧ regAt R a b < B) :
    ∀ c ∈ seqClauses k n lits R, ∀ l ∈ c, l ≠ 0 ∧ l.natAbs < B := by
  intro c hc
  have h0 : (0 : Nat) < lits.length := by omega
  have hlit := litAt_ok h0 hl
  have hreg₀ := fun b hb => regLit_ok (hreg 0 b h0 hb)
  simp only [seqClauses, List.mem_append, List.mem_cons, List.mem_map,
    List.mem_flatMap, List.mem_range, List.not_mem_nil, or_false] at hc
  rcases hc with ((rfl | rfl) | ⟨j', hj', rfl⟩) | ⟨i', hi', hrow⟩
  · intro l hlm
    rcases (by simpa using hlm :
        l = -(litAt lits 0) ∨ l = regLit R 0 0) with rfl | rfl
    · exact hlit.2
    · exact (hreg₀ 0 hk).1
  · intro l hlm
    rcases (by simpa using hlm :
        l = litAt lits 0 ∨ l = -(regLit R 0 0)) with rfl | rfl
    · exact hlit.1
    · exact (hreg₀ 0 hk).2
  · intro l hlm
    have hl2 : l = -(regLit R 0 (j' + 1)) := by simpa using hlm
    rw [hl2]
    exact (hreg₀ (j' + 1) (by omega)).2
  · exact seqRowClauses_wf (by omega) hk hl hreg c hrow

theorem atmost_sequential_counter_ok {k : Nat} {lits : List Nat}
    {s : CNFCompiler} {r : Int} {s' : CNFCompiler}
    (h : atmost_sequential_counter k lits s = (r, s'))
    (hwf : WFState s) (hk : 1 ≤ k) (hkn : k < lits.length)
    (hl : ∀ l ∈ lits, 1 ≤ l ∧ l < s.next_id) :
    StExt s s' ∧ WFState s' ∧ s'.var_map = s.var_map ∧
    s'.next_id = s.next_id + lits.length * k + 1 ∧
    r ≠ 0 ∧ r.natAbs < s'.next_id := by
  rcases hM : mkAuxMatrix lits.length k s with ⟨R, s1⟩
  have hMs := mkAuxMatrix_spec lits.length k s
  rw [hM] at hMs
  obtain ⟨hm1, hm2, hm3, hm4⟩ := hMs
  dsimp only at hm1 hm2 hm3 hm4
  have hprod : 1 ≤ lits.length * k := Nat.mul_pos (by omega) (by omega)
  have hn1 : 1 ≤ s.next_id := hwf.nid
  unfold atmost_sequential_counter at h
  dsimp only at h
  rw [hM] at h
  dsimp only [mkAux] at h
  rw [Prod.mk.injEq] at h
  obtain ⟨hr, hs'⟩ := h
  have hA := addAll_spec (seqClauses k lits.length lits R) s1
  obtain ⟨haext, hanid, havm, hacl, hawf⟩ := hA
  have hwf1 : WFState s1 := by
    refine ⟨by omega, ?_, ?_⟩
    · rw [hm1, hm3]
      intro p hp
      have h2 := hwf.vm p hp
      exact ⟨h2.1, by omega⟩
    · rw [hm2, hm3]
      intro c hc l hlm
      have h2 := hwf.cl c hc l hlm
      exact ⟨h2.1, by omega⟩
  have hregb : ∀ a b, a < lits.length → b < k →
      1 ≤ regAt R a b ∧ regAt R a b < s1.next_id := by
    intro a b ha hb
    rw [hm4 a b ha hb, hm3]
    constructor
    · omega
    · have hmul2 : a * k + k ≤ lits.length * k := by
        have h3 : (a + 1) * k ≤ lits.length * k :=
          Nat.mul_le_mul_right k (by omega)
        calc a * k + k = (a + 1) * k := by rw [Nat.add_mul, Nat.one_mul]
          _ ≤ lits.length * k := h3
      omega
  have hlb : ∀ l ∈ lits, 1 ≤ l ∧ l < s1.next_id := by
    intro l hlm
    have h2 := hl l hlm
    rw [hm3]
    exact ⟨h2.1, by omega⟩
  have hwf2 : WFState (addAll (seqClauses k lits.length lits R) s1) :=
    hawf hwf1 (seqClauses_wf (by omega) (le_refl _) hk hlb hregb)
  have hnid2 : (addAll (seqClauses k lits.length lits R) s1).next_id
      = s.next_id + lits.length * k := by rw [hanid, hm3]
  have hvm2 : (addAll (seqClauses k lits.length lits R) s1).var_map
      = s.var_map := by rw [havm, hm1]
  have hnid' : s'.next_id = s.next_id + lits.length * k + 1 := by
    rw [← hs']
    show (addAll (seqClauses k lits.length lits R) s1).next_id + 1 = _
    rw [hnid2]
  refine ⟨?_, ?_, ?_, hnid', ?_, ?_⟩
  · -- StExt s s'
    have hext1 : StExt s s1 :=
      ⟨by omega, ⟨[], by rw [hm1, List.append_nil]⟩,
        ⟨[], by rw [hm2, List.append_nil]⟩⟩
    have hext3 : StExt (addAll (seqClauses k lits.length lits R) s1) s' := by
      rw [← hs']
      refine ⟨Nat.le_succ _, ⟨[], by simp [add_clause]⟩, ?_⟩
      exact ⟨[[((addAll (seqClauses k lits.length lits R) s1).next_id : Int)]],
        rfl⟩
    exact stExt_trans hext1 (stExt_trans haext hext3)
  · -- WFState s'
    rw [← hs']
    have hb : 1 ≤ (addAll (seqClauses k lits.length lits R) s1).next_id ∧
        (addAll (seqClauses k lits.length lits R) s1).next_id <
          (addAll (seqClauses k lits.length lits R) s1).next_id + 1 := by
      constructor
      · omega
      · omega
    refine ⟨?_, ?_, ?_⟩
    · show 1 ≤ (addAll (seqClauses k lits.length lits R) s1).next_id + 1
      omega
    · intro p hp
      have hp2 : p ∈ (addAll (seqClauses k lits.length lits R) s1).var_map := hp
      have h2 := hwf2.vm p hp2
      show 1 ≤ p.2 ∧ p.2 < (addAll (seqClauses k lits.length lits R) s1).next_id + 1
      exact ⟨h2.1, by omega⟩
    · intro c hc l hlm
      have hc2 : c ∈ (addAll (seqClauses k lits.length lits R) s1).clauses
          ++ [[((addAll (seqClauses k lits.length lits R) s1).next_id : Int)]] := hc
      show l ≠ 0 ∧ l.natAbs <
        (addAll (seqClauses k lits.length lits R) s1).next_id + 1
      rcases List.mem_append.1 hc2 with hc2 | hc2
      · have h2 := hwf2.cl c hc2 l hlm
        exact ⟨h2.1, by omega⟩
      · have hceq : c = [((addAll (seqClauses k lits.length lits R) s1).next_id : Int)] := by
          simpa using hc2
        rw [hceq] at hlm
        have hleq : l = ((addAll (seqClauses k lits.length lits R) s1).next_id : Int) := by
          simpa using hlm
        rw [hleq]
        exact int_pos_bound hb
  · -- var_map
    rw [← hs']
    show (addAll (seqClauses k lits.length lits R) s1).var_map = s.var_map
    exact hvm2
  · rw [← hr]
    have : 1 ≤ (addAll (seqClauses k lits.length lits R) s1).next_id := by omega
    exact_mod_cast (int_pos_bound ⟨this, Nat.lt_succ_self _⟩).1
  · rw [← hr, hnid']
    have hb2 : 1 ≤ (addAll (seqClauses k lits.length lits R) s1).next_id ∧
        (addAll (seqClauses k lits.length lits R) s1).next_id <
          s.next_id + lits.length * k + 1 := ⟨by omega, by omega⟩
    exact (int_pos_bound hb2).2

theorem mkAux_unit_ok (s1 : CNFCompiler) (l : Int) (hwf1 : WFState s1)
    (hl : l ≠ 0 ∧ l.natAbs < s1.next_id + 1) :
    StExt s1 (add_clause [l] { s1 with next_id := s1.next_id + 1 }) ∧
    WFState (add_clause [l] { s1 with next_id := s1.next_id + 1 }) ∧
    (add_clause [l] { s1 with next_id := s1.next_id + 1 }).var_map
      = s1.var_map ∧
    (add_clause [l] { s1 with next_id := s1.next_id + 1 }).next_id
      = s1.next_id + 1 ∧
    (∀ declared, KeysOk declared s1 →
      KeysOk declared (add_clause [l] { s1 with next_id := s1.next_id + 1 })) := by
  obtain ⟨hext, ha, hnid, hwfm, hkeysm⟩ := mkAux_spec s1
  obtain ⟨hext2, hnid2, _, hvm2, hwf2, hkeys2⟩ :=
    add_clause_spec [l] { s1 with next_id := s1.next_id + 1 }
  refine ⟨stExt_trans hext hext2, ?_, by rw [hvm2], by rw [hnid2], ?_⟩
  · refine hwf2 (hwfm hwf1).1 ?_
    intro l' hl'
    have hleq : l' = l := by simpa using hl'
    rw [hleq]
    exact hl
  · intro declared hk
    exact hkeys2 declared (hkeysm declared hk)

theorem encode_atmost_ok {k : Nat} {vn declared : List String}
    {s : CNFCompiler} {r : Int} {s' : CNFCompiler}
    (h : encode_atmost k vn declared s = .ok (r, s'))
    (hwf : WFState s) (hkeys : KeysOk declared s) :
    StExt s s' ∧ WFState s' ∧ KeysOk declared s' ∧
    r ≠ 0 ∧ r.natAbs < s'.next_id := by
  unfold encode_atmost at h
  cases hG : getLits vn declared s with
  | error e =>
    rw [hG] at h
    simp only [bind, Except.bind] at h
    exact absurd h (by simp)
  | ok p =>
    rcases p with ⟨lits, s1⟩
    rw [hG] at h
    simp only [bind, Except.bind] at h
    obtain ⟨hGext, hGmap, hGdecl, hGwf, hGkeys⟩ :=
      getLits_spec vn declared s lits s1 hG
    obtain ⟨hwf1, hlb⟩ := hGwf hwf
    have hk1 : KeysOk declared s1 :=
      hGkeys declared (fun v hv => Or.inl (hGdecl v hv)) hkeys
    by_cases h1 : k ≥ lits.length
    · rw [if_pos h1] at h
      dsimp only [mkAux] at h
      rw [Except.ok.injEq, Prod.mk.injEq] at h
      obtain ⟨hr, hs⟩ := h
      have hb : ((s1.next_id : Nat) : Int) ≠ 0 ∧
          ((s1.next_id : Nat) : Int).natAbs < s1.next_id + 1 :=
        int_pos_bound ⟨hwf1.nid, Nat.lt_succ_self _⟩
      obtain ⟨hue, huw, huv, hun, huk⟩ := mkAux_unit_ok s1 _ hwf1 hb
      rw [← hs, ← hr]
      refine ⟨stExt_trans hGext hue, huw, huk declared hk1, hb.1, ?_⟩
      rw [hun]
      exact hb.2
    · rw [if_neg h1] at h
      by_cases h2 : k = 0
      · rw [if_pos h2] at h
        dsimp only [mkAux] at h
        rw [Except.ok.injEq, Prod.mk.injEq] at h
        obtain ⟨hr, hs⟩ := h
        obtain ⟨hmext, hma, hmnid, hmwf, hmkeys⟩ := mkAux_spec s1
        obtain ⟨haext, hanid, havm, hacl, hawf⟩ :=
          addAll_spec (lits.map (fun l : Nat => [-((s1.next_id : Nat) : Int), -(l : Int)]))
            { s1 with next_id := s1.next_id + 1 }
        have hwfm := (hmwf hwf1).1
        have hwfa : WFState (addAll
            (lits.map (fun l : Nat => [-((s1.next_id : Nat) : Int), -(l : Int)]))
            { s1 with next_id := s1.next_id + 1 }) := by
          refine hawf hwfm ?_
          intro c hc l hlm
          obtain ⟨x, hx, hceq⟩ := List.mem_map.1 hc
          rw [← hceq] at hlm
          rcases (by simpa using hlm :
              l = -((s1.next_id : Nat) : Int) ∨ l = -(x : Int)) with rfl | rfl
          · exact int_neg_bound ⟨hwf1.nid, Nat.lt_succ_self _⟩
          · have h3 := hlb x hx
            exact @int_neg_bound x (s1.next_id + 1) ⟨h3.1, by omega⟩
        obtain ⟨hcext, hcnid, _, hcvm, hcwf, hckeys⟩ :=
          add_clause_spec (((s1.next_id : Nat) : Int) :: lits.map (fun l : Nat => (l : Int)))
            (addAll (lits.map (fun l : Nat => [-((s1.next_id : Nat) : Int), -(l : Int)]))
              { s1 with next_id := s1.next_id + 1 })
        have hnida : (addAll
            (lits.map (fun l : Nat => [-((s1.next_id : Nat) : Int), -(l : Int)]))
            { s1 with next_id := s1.next_id + 1 }).next_id = s1.next_id + 1 := hanid
        have hwfc : WFState s' := by
          rw [← hs]
          refine hcwf hwfa ?_
          intro l hlm
          rw [hnida]
          rcases List.mem_cons.1 hlm with rfl | hlm
          · exact int_pos_bound ⟨hwf1.nid, Nat.lt_succ_self _⟩
          · obtain ⟨x, hx, hxeq⟩ := List.mem_map.1 hlm
            have h3 := hlb x hx
            rw [← hxeq]
            exact int_pos_bound ⟨h3.1, by omega⟩
        have hvm' : s'.var_map = s1.var_map := by
          rw [← hs, hcvm, havm]
        have hnid' : s'.next_id = s1.next_id + 1 := by
          rw [← hs, hcnid, hnida]
        refine ⟨?_, hwfc, ?_, ?_, ?_⟩
        · refine stExt_trans hGext (stExt_trans hmext (stExt_trans haext ?_))
          rw [← hs]
          exact hcext
        · intro p hp
          rw [hvm'] at hp
          exact hk1 p hp
        · rw [← hr]
          exact (int_pos_bound ⟨hwf1.nid, Nat.lt_succ_self _⟩).1
        · rw [← hr, hnid']
          exact (int_pos_bound ⟨hwf1.nid, Nat.lt_succ_self _⟩).2
      · rw [if_neg h2] at h
        by_cases h3 : lits.length ≤ 10 ∨ k = 1
        · rw [if_pos h3] at h
          rw [Except.ok.injEq] at h
          have hp1 : (atmost_pairwise k lits s1).1 = r := congrArg Prod.fst h
          have hp2 : (atmost_pairwise k lits s1).2 = s' := congrArg Prod.snd h
          obtain ⟨hlit, hvm, hnid, hcl⟩ := atmost_pairwise_spec k lits s1
          have hwfp : WFState (atmost_pairwise k lits s1).2 :=
            atmost_pairwise_wf k lits s1 hwf1 hlb
          refine ⟨?_, by rw [← hp2]; exact hwfp, ?_, ?_, ?_⟩
          · refine stExt_trans hGext ?_
            rw [← hp2]
            refine ⟨by rw [hnid]; omega, ⟨[], by rw [hvm, List.append_nil]⟩, ?_⟩
            refine ⟨(combinations (k + 1) lits).map
              (fun combo => (-((s1.next_id : Nat) : Int)) ::
                combo.map (fun l : Nat => -(l : Int)))
              ++ [((s1.next_id : Nat) : Int) :: lits.map (fun l : Nat => (l : Int))], ?_⟩
            rw [hcl, List.append_assoc]
          · intro p hp
            rw [← hp2, hvm] at hp
            exact hk1 p hp
          · rw [← hp1, hlit]
            exact (int_pos_bound ⟨hwf1.nid, Nat.lt_succ_self _⟩).1
          · rw [← hp1, ← hp2, hlit, hnid]
            exact (int_pos_bound ⟨hwf1.nid, Nat.lt_succ_self _⟩).2
        · rw [if_neg h3] at h
          rw [Except.ok.injEq] at h
          obtain ⟨hsext, hswf, hsvm, hsnid, hsr, hsb⟩ :=
            atmost_sequential_counter_ok h hwf1 (by omega) (by omega) hlb
          refine ⟨stExt_trans hGext hsext, hswf, ?_, hsr, hsb⟩
          intro p hp
          rw [hsvm] at hp
          exact hk1 p hp

theorem mkNegVars_ok : ∀ (vs : List String) (s : CNFCompiler) (ns : List String)
    (s' : CNFCompiler), mkNegVars vs s = (ns, s') → WFState s →
    ns = vs.map (fun v => "__neg_" ++ v) ∧ StExt s s' ∧ WFState s' ∧
    (∀ declared, (∀ v ∈ vs, v ∈ declared ∨ ∃ w, v = "__neg_" ++ w) →
      KeysOk declared s → KeysOk declared s') := by
  intro vs
  induction vs with
  | nil =>
    intro s ns s' h hwf
    rw [show mkNegVars [] s = ([], s) from rfl, Prod.mk.injEq] at h
    obtain ⟨h1, h2⟩ := h
    subst h1
    subst h2
    exact ⟨rfl, stExt_refl s, hwf, fun declared _ hk => hk⟩
  | cons v rest ih =>
    intro s ns s' h hwf
    have hn1 := hwf.nid
    unfold mkNegVars at h
    dsimp only at h
    cases hl : s.var_map.lookup ("__neg_" ++ v) with
    | some i =>
      rw [hl] at h
      dsimp only at h
      rcases hR : mkNegVars rest s with ⟨rest', s2⟩
      rw [hR] at h
      dsimp only at h
      rw [Prod.mk.injEq] at h
      obtain ⟨h1, h2⟩ := h
      subst h1
      subst h2
      obtain ⟨ihns, ihext, ihwf, ihkeys⟩ := ih s rest' s2 hR hwf
      refine ⟨by rw [ihns, List.map_cons], ihext, ihwf, ?_⟩
      intro declared hd hk
      exact ihkeys declared (fun w hw => hd w (List.mem_cons_of_mem _ hw)) hk
    | none =>
      rw [hl] at h
      dsimp only [mkAux] at h
      rcases hv : var_id v ⟨s.var_map ++ [("__neg_" ++ v, s.next_id)],
          s.next_id + 1, s.clauses⟩ with ⟨orig, s3⟩
      rw [hv] at h
      dsimp only at h
      rcases hR : mkNegVars rest
          (add_clause [-((s.next_id : Nat) : Int), -((orig : Nat) : Int)]
            (add_clause [((s.next_id : Nat) : Int), ((orig : Nat) : Int)] s3))
        with ⟨rest', s4⟩
      rw [hR] at h
      dsimp only at h
      rw [Prod.mk.injEq] at h
      obtain ⟨h1, h2⟩ := h
      subst h1
      subst h2
      have hwfB : WFState ⟨s.var_map ++ [("__neg_" ++ v, s.next_id)],
          s.next_id + 1, s.clauses⟩ := by
        refine ⟨?_, ?_, ?_⟩
        · show 1 ≤ s.next_id + 1
          omega
        · intro p hp
          show 1 ≤ p.2 ∧ p.2 < s.next_id + 1
          rcases List.mem_append.1 hp with hp | hp
          · have h2 := hwf.vm p hp
            exact ⟨h2.1, by omega⟩
          · have hp2 : p = ("__neg_" ++ v, s.next_id) := by simpa using hp
            rw [hp2]
            exact ⟨hn1, Nat.lt_succ_self _⟩
        · intro c hc l hlm
          show l ≠ 0 ∧ l.natAbs < s.next_id + 1
          have h2 := hwf.cl c hc l hlm
          exact ⟨h2.1, by omega⟩
      have hextB : StExt s ⟨s.var_map ++ [("__neg_" ++ v, s.next_id)],
          s.next_id + 1, s.clauses⟩ := by
        refine ⟨Nat.le_succ _, ⟨[("__neg_" ++ v, s.next_id)], rfl⟩, ⟨[], ?_⟩⟩
        show s.clauses = s.clauses ++ []
        rw [List.append_nil]
      obtain ⟨hvext, hvlook, hvwf, hvkeys⟩ := var_id_eq_spec hv
      obtain ⟨hwf3, horig1, horig2⟩ := hvwf hwfB
      have hnext3 : s.next_id + 1 ≤ s3.next_id := hvext.1
      have hb1 : ∀ l ∈ [((s.next_id : Nat) : Int), ((orig : Nat) : Int)],
          l ≠ 0 ∧ l.natAbs < s3.next_id := by
        intro l hlm
        rcases (by simpa using hlm :
            l = ((s.next_id : Nat) : Int) ∨ l = ((orig : Nat) : Int))
          with rfl | rfl
        · exact int_pos_bound ⟨hn1, by omega⟩
        · exact int_pos_bound ⟨horig1, horig2⟩
      obtain ⟨hcext1, hcnid1, _, hcvm1, hcwf1, hckeys1⟩ :=
        add_clause_spec [((s.next_id : Nat) : Int), ((orig : Nat) : Int)] s3
      have hwf4 : WFState (add_clause [((s.next_id : Nat) : Int),
          ((orig : Nat) : Int)] s3) := hcwf1 hwf3 hb1
      obtain ⟨hcext2, hcnid2, _, hcvm2, hcwf2, hckeys2⟩ :=
        add_clause_spec [-((s.next_id : Nat) : Int), -((orig : Nat) : Int)]
          (add_clause [((s.next_id : Nat) : Int), ((orig : Nat) : Int)] s3)
      have hwf5 : WFState (add_clause [-((s.next_id : Nat) : Int),
          -((orig : Nat) : Int)]
          (add_clause [((s.next_id : Nat) : Int), ((orig : Nat) : Int)] s3)) := by
        refine hcwf2 hwf4 ?_
        intro l hlm
        rw [hcnid1]
        rcases (by simpa using hlm :
            l = -((s.next_id : Nat) : Int) ∨ l = -((orig : Nat) : Int))
          with rfl | rfl
        · exact int_neg_bound ⟨hn1, by omega⟩
        · exact int_neg_bound ⟨horig1, horig2⟩
      obtain ⟨ihns, ihext, ihwf, ihkeys⟩ := ih _ rest' s4 hR hwf5
      refine ⟨by rw [ihns, List.map_cons], ?_, ihwf, ?_⟩
      · exact stExt_trans hextB (stExt_trans hvext
          (stExt_trans hcext1 (stExt_trans hcext2 ihext)))
      · intro declared hd hk
        have hkB : KeysOk declared ⟨s.var_map ++ [("__neg_" ++ v, s.next_id)],
            s.next_id + 1, s.clauses⟩ := by
          intro p hp
          rcases List.mem_append.1 hp with hp | hp
          · exact hk p hp
          · have hp2 : p = ("__neg_" ++ v, s.next_id) := by simpa using hp
            rw [hp2]
            exact Or.inr ⟨v, rfl⟩
        have hk3 : KeysOk declared s3 :=
          hvkeys declared (hd v (List.mem_cons_self _ _)) hkB
        exact ihkeys declared (fun w hw => hd w (List.mem_cons_of_mem _ hw))
          (hckeys2 declared (hckeys1 declared hk3))

theorem encode_atleast_ok {k : Nat} {vn declared : List String}
    {s : CNFCompiler} {r : Int} {s' : CNFCompiler}
    (h : encode_atleast k vn declared s = .ok (r, s'))
    (hwf : WFState s) (hkeys : KeysOk declared s) :
    StExt s s' ∧ WFState s' ∧ KeysOk declared s' ∧
    r ≠ 0 ∧ r.natAbs < s'.next_id := by
  unfold encode_atleast at h
  cases hG : getLits vn declared s with
  | error e =>
    rw [hG] at h
    simp only [bind, Except.bind] at h
    exact absurd h (by simp)
  | ok p =>
    rcases p with ⟨lits, s1⟩
    rw [hG] at h
    simp only [bind, Except.bind] at h
    obtain ⟨hGext, hGmap, hGdecl, hGwf, hGkeys⟩ :=
      getLits_spec vn declared s lits s1 hG
    obtain ⟨hwf1, hlb⟩ := hGwf hwf
    have hk1 : KeysOk declared s1 :=
      hGkeys declared (fun v hv => Or.inl (hGdecl v hv)) hkeys
    by_cases h1 : k = 0
    · rw [if_pos h1] at h
      dsimp only [mkAux] at h
      rw [Except.ok.injEq, Prod.mk.injEq] at h
      obtain ⟨hr, hs⟩ := h
      have hb : ((s1.next_id : Nat) : Int) ≠ 0 ∧
          ((s1.next_id : Nat) : Int).natAbs < s1.next_id + 1 :=
        int_pos_bound ⟨hwf1.nid, Nat.lt_succ_self _⟩
      obtain ⟨hue, huw, huv, hun, huk⟩ := mkAux_unit_ok s1 _ hwf1 hb
      rw [← hs, ← hr]
      refine ⟨stExt_trans hGext hue, huw, huk declared hk1, hb.1, ?_⟩
      rw [hun]
      exact hb.2
    · rw [if_neg h1] at h
      by_cases h2 : k = lits.length
      · rw [if_pos h2] at h
        dsimp only [mkAux] at h
        rw [Except.ok.injEq, Prod.mk.injEq] at h
        obtain ⟨hr, hs⟩ := h
        obtain ⟨hmext, hma, hmnid, hmwf, hmkeys⟩ := mkAux_spec s1
        obtain ⟨haext, hanid, havm, hacl, hawf⟩ :=
          addAll_spec (lits.map (fun l : Nat => [-((s1.next_id : Nat) : Int), (l : Int)]))
            { s1 with next_id := s1.next_id + 1 }
        have hwfm := (hmwf hwf1).1
        have hwfa : WFState (addAll
            (lits.map (fun l : Nat => [-((s1.next_id : Nat) : Int), (l : Int)]))
            { s1 with next_id := s1.next_id + 1 }) := by
          refine hawf hwfm ?_
          intro c hc l hlm
          obtain ⟨x, hx, hceq⟩ := List.mem_map.1 hc
          rw [← hceq] at hlm
          rcases (by simpa using hlm :
              l = -((s1.next_id : Nat) : Int) ∨ l = (x : Int)) with rfl | rfl
          · exact int_neg_bound ⟨hwf1.nid, Nat.lt_succ_self _⟩
          · have h3 := hlb x hx
            exact @int_pos_bound x (s1.next_id + 1) ⟨h3.1, by omega⟩
        obtain ⟨hcext, hcnid, _, hcvm, hcwf, hckeys⟩ :=
          add_clause_spec (((s1.next_id : Nat) : Int) :: lits.map (fun l : Nat => -(l : Int)))
            (addAll (lits.map (fun l : Nat => [-((s1.next_id : Nat) : Int), (l : Int)]))
              { s1 with next_id := s1.next_id + 1 })
        have hnida : (addAll
            (lits.map (fun l : Nat => [-((s1.next_id : Nat) : Int), (l : Int)]))
            { s1 with next_id := s1.next_id + 1 }).next_id = s1.next_id + 1 := hanid
        have hwfc : WFState s' := by
          rw [← hs]
          refine hcwf hwfa ?_
          intro l hlm
          rw [hnida]
          rcases List.mem_cons.1 hlm with rfl | hlm
          · exact int_pos_bound ⟨hwf1.nid, Nat.lt_succ_self _⟩
          · obtain ⟨x, hx, hxeq⟩ := List.mem_map.1 hlm
            have h3 := hlb x hx
            rw [← hxeq]
            exact int_neg_bound ⟨h3.1, by omega⟩
        have hvm' : s'.var_map = s1.var_map := by
          rw [← hs, hcvm, havm]
        have hnid' : s'.next_id = s1.next_id + 1 := by
          rw [← hs, hcnid, hnida]
        refine ⟨?_, hwfc, ?_, ?_, ?_⟩
        · refine stExt_trans hGext (stExt_trans hmext (stExt_trans haext ?_))
          rw [← hs]
          exact hcext
        · intro p hp
          rw [hvm'] at hp
          exact hk1 p hp
        · rw [← hr]
          exact (int_pos_bound ⟨hwf1.nid, Nat.lt_succ_self _⟩).1
        · rw [← hr, hnid']
          exact (int_pos_bound ⟨hwf1.nid, Nat.lt_succ_self _⟩).2
      · rw [if_neg h2] at h
        rcases hN : mkNegVars vn s1 with ⟨ns, s2⟩
        rw [hN] at h
        dsimp only at h
        obtain ⟨hNns, hNext, hNwf, hNkeys⟩ := mkNegVars_ok vn s1 ns s2 hN hwf1
        have hk2 : KeysOk declared s2 :=
          hNkeys declared (fun v hv => Or.inl (hGdecl v hv)) hk1
        have hk2' : KeysOk (declared ++ ns) s2 := by
          intro p hp
          rcases hk2 p hp with hp2 | hp2
          · exact Or.inl (List.mem_append_left _ hp2)
          · exact Or.inr hp2
        obtain ⟨hAext, hAwf, hAkeys, hAr, hAb⟩ := encode_atmost_ok h hNwf hk2'
        refine ⟨stExt_trans hGext (stExt_trans hNext hAext), hAwf, ?_, hAr, hAb⟩
        intro p hp
        rcases hAkeys p hp with hp2 | hp2
        · rcases List.mem_append.1 hp2 with hp3 | hp3
          · exact Or.inl hp3
          · rw [hNns] at hp3
            obtain ⟨w, hw, hweq⟩ := List.mem_map.1 hp3
            exact Or.inr ⟨w, hweq.symm⟩
        · exact Or.inr hp2

theorem addAll_addAll (cs1 cs2 : List (List Int)) (s : CNFCompiler) :
    addAll cs2 (addAll cs1 s) = addAll (cs1 ++ cs2) s := by
  unfold addAll
  rw [List.foldl_append]

theorem mkAux_clauses_ok (s1 : CNFCompiler) (cs : List (List Int))
    (hwf1 : WFState s1)
    (hb : ∀ c ∈ cs, ∀ l ∈ c, l ≠ 0 ∧ l.natAbs < s1.next_id + 1) :
    StExt s1 (addAll cs { s1 with next_id := s1.next_id + 1 }) ∧
    WFState (addAll cs { s1 with next_id := s1.next_id + 1 }) ∧
    (addAll cs { s1 with next_id := s1.next_id + 1 }).var_map = s1.var_map ∧
    (addAll cs { s1 with next_id := s1.next_id + 1 }).next_id
      = s1.next_id + 1 ∧
    (∀ declared, KeysOk declared s1 →
      KeysOk declared (addAll cs { s1 with next_id := s1.next_id + 1 })) := by
  obtain ⟨hmext, hma, hmnid, hmwf, hmkeys⟩ := mkAux_spec s1
  obtain ⟨haext, hanid, havm, hacl, hawf⟩ :=
    addAll_spec cs { s1 with next_id := s1.next_id + 1 }
  have hwfm := (hmwf hwf1).1
  refine ⟨stExt_trans hmext haext, hawf hwfm hb, by rw [havm], by rw [hanid], ?_⟩
  intro declared hk p hp
  rw [havm] at hp
  exact hmkeys declared hk p hp

theorem encodeList_ok_of : ∀ (es : List Expr),
    (∀ c ∈ es, EncodeOk c) → EncodeListOk es := by
  intro es
  induction es with
  | nil =>
    intro _ declared s ls s' h hwf hk
    rw [show encodeList [] declared s = .ok ([], s) from rfl,
      Except.ok.injEq, Prod.mk.injEq] at h
    obtain ⟨h1, h2⟩ := h
    subst h1
    subst h2
    exact ⟨stExt_refl s, hwf, hk, by simp⟩
  | cons e rest ih =>
    intro hall declared s ls s' h hwf hk
    unfold encodeList at h
    cases hE : encode e declared s with
    | error er =>
      rw [hE] at h
      simp only [bind, Except.bind] at h
      exact absurd h (by simp)
    | ok p =>
      rcases p with ⟨l, s1⟩
      rw [hE] at h
      simp only [bind, Except.bind] at h
      cases hR : encodeList rest declared s1 with
      | error er =>
        rw [hR] at h
        simp only [bind, Except.bind] at h
        exact absurd h (by simp)
      | ok q =>
        rcases q with ⟨ls2, s2⟩
        rw [hR] at h
        simp only [bind, Except.bind] at h
        rw [Except.ok.injEq, Prod.mk.injEq] at h
        obtain ⟨h1, h2⟩ := h
        subst h1
        subst h2
        obtain ⟨hEext, hEwf, hEk, hEr, hEb⟩ :=
          hall e (List.mem_cons_self _ _) declared s l s1 hE hwf hk
        obtain ⟨hRext, hRwf, hRk, hRb⟩ :=
          ih (fun c hc => hall c (List.mem_cons_of_mem _ hc))
            declared s1 ls2 s2 hR hEwf hEk
        refine ⟨stExt_trans hEext hRext, hRwf, hRk, ?_⟩
        intro x hx
        rcases List.mem_cons.1 hx with rfl | hx
        · exact ⟨hEr, lt_of_lt_of_le hEb hRext.1⟩
        · exact hRb x hx

theorem encode_ok_sized : ∀ (N : Nat) (e : Expr), sizeOf e ≤ N → EncodeOk e := by
  intro N
  induction N with
  | zero =>
    intro e he
    exfalso
    cases e <;> simp at he
  | succ N ih =>
    intro e he
    cases e with
    | litTrue =>
      intro declared s r s' h hwf hk
      unfold encode at h
      dsimp only [mkAux] at h
      rw [Except.ok.injEq, Prod.mk.injEq] at h
      obtain ⟨hr, hs⟩ := h
      have hb : ((s.next_id : Nat) : Int) ≠ 0 ∧
          ((s.next_id : Nat) : Int).natAbs < s.next_id + 1 :=
        int_pos_bound ⟨hwf.nid, Nat.lt_succ_self _⟩
      obtain ⟨hue, huw, huv, hun, huk⟩ := mkAux_unit_ok s _ hwf hb
      rw [← hs, ← hr]
      exact ⟨hue, huw, huk declared hk, hb.1, by rw [hun]; exact hb.2⟩
    | litFalse =>
      intro declared s r s' h hwf hk
      unfold encode at h
      dsimp only [mkAux] at h
      rw [Except.ok.injEq, Prod.mk.injEq] at h
      obtain ⟨hr, hs⟩ := h
      have hb : -((s.next_id : Nat) : Int) ≠ 0 ∧
          (-((s.next_id : Nat) : Int)).natAbs < s.next_id + 1 :=
        int_neg_bound ⟨hwf.nid, Nat.lt_succ_self _⟩
      obtain ⟨hue, huw, huv, hun, huk⟩ := mkAux_unit_ok s _ hwf hb
      rw [← hs, ← hr]
      exact ⟨hue, huw, huk declared hk, hb.1, by rw [hun]; exact hb.2⟩
    | varRef name =>
      intro declared s r s' h hwf hk
      unfold encode at h
      by_cases hd : name ∈ declared
      · rw [if_pos hd] at h
        rcases hv : var_id name s with ⟨i, s1⟩
        rw [hv] at h
        dsimp only at h
        rw [Except.ok.injEq, Prod.mk.injEq] at h
        obtain ⟨hr, hs⟩ := h
        obtain ⟨hvext, hvlook, hvwf, hvkeys⟩ := var_id_eq_spec hv
        obtain ⟨hwf1, hi1, hi2⟩ := hvwf hwf
        rw [← hs, ← hr]
        exact ⟨hvext, hwf1, hvkeys declared (Or.inl hd) hk,
          (int_pos_bound ⟨hi1, hi2⟩).1, (int_pos_bound ⟨hi1, hi2⟩).2⟩
      · rw [if_neg hd] at h
        exact absurd h (by simp)
    | notE child =>
      have ihc : EncodeOk child := ih child (by simp at he; omega)
      intro declared s r s' h hwf hk
      unfold encode at h
      cases hE : encode child declared s with
      | error er =>
        rw [hE] at h
        simp only [bind, Except.bind] at h
        exact absurd h (by simp)
      | ok p =>
        rcases p with ⟨c, s1⟩
        rw [hE] at h
        simp only [bind, Except.bind] at h
        rw [Except.ok.injEq, Prod.mk.injEq] at h
        obtain ⟨hr, hs⟩ := h
        obtain ⟨hEext, hEwf, hEk, hEr, hEb⟩ := ihc declared s c s1 hE hwf hk
        rw [← hs, ← hr]
        exact ⟨hEext, hEwf, hEk, neg_ne_zero.2 hEr,
          by rw [Int.natAbs_neg]; exact hEb⟩
    | andE children =>
      have ihl : ∀ c ∈ children, EncodeOk c := fun c hc =>
        ih c (by simp at he; have h2 := List.sizeOf_lt_of_mem hc; omega)
      have hEL := encodeList_ok_of children ihl
      intro declared s r s' h hwf hk
      unfold encode at h
      cases hE : encodeList children declared s with
      | error er =>
        rw [hE] at h
        simp only [bind, Except.bind] at h
        exact absurd h (by simp)
      | ok p =>
        rcases p with ⟨cls, s1⟩
        rw [hE] at h
        simp only [bind, Except.bind] at h
        dsimp only [mkAux] at h
        rw [Except.ok.injEq, Prod.mk.injEq] at h
        obtain ⟨hr, hs⟩ := h
        obtain ⟨hLext, hLwf, hLk, hLb⟩ := hEL declared s cls s1 hE hwf hk
        have hstate : add_clause
            (((s1.next_id : Nat) : Int) :: cls.map (fun cl => -cl))
            (addAll (cls.map (fun cl => [-((s1.next_id : Nat) : Int), cl]))
              { s1 with next_id := s1.next_id + 1 })
            = addAll ((cls.map (fun cl => [-((s1.next_id : Nat) : Int), cl]))
                ++ [((s1.next_id : Nat) : Int) :: cls.map (fun cl => -cl)])
              { s1 with next_id := s1.next_id + 1 } :=
          addAll_addAll (cls.map (fun cl => [-((s1.next_id : Nat) : Int), cl]))
            [((s1.next_id : Nat) : Int) :: cls.map (fun cl => -cl)]
            { s1 with next_id := s1.next_id + 1 }
        have hbounds : ∀ c ∈ (cls.map (fun cl => [-((s1.next_id : Nat) : Int), cl]))
            ++ [((s1.next_id : Nat) : Int) :: cls.map (fun cl => -cl)],
            ∀ l ∈ c, l ≠ 0 ∧ l.natAbs < s1.next_id + 1 := by
          intro c hc l hlm
          rcases List.mem_append.1 hc with hc | hc
          · obtain ⟨x, hx, hceq⟩ := List.mem_map.1 hc
            rw [← hceq] at hlm
            rcases (by simpa using hlm :
                l = -((s1.next_id : Nat) : Int) ∨ l = x) with rfl | rfl
            · exact int_neg_bound ⟨hLwf.nid, Nat.lt_succ_self _⟩
            · have h3 := hLb _ hx
              exact ⟨h3.1, by omega⟩
          · have hceq : c = ((s1.next_id : Nat) : Int) :: cls.map (fun cl => -cl) := by
              simpa using hc
            rw [hceq] at hlm
            rcases List.mem_cons.1 hlm with rfl | hlm
            · exact int_pos_bound ⟨hLwf.nid, Nat.lt_succ_self _⟩
            · obtain ⟨x, hx, hxeq⟩ := List.mem_map.1 hlm
              have h3 := hLb x hx
              rw [← hxeq]
              exact ⟨neg_ne_zero.2 h3.1, by rw [Int.natAbs_neg]; omega⟩
        obtain ⟨hoe, how, hov, hon, hok2⟩ := mkAux_clauses_ok s1 _ hLwf hbounds
        rw [← hs, hstate, ← hr]
        refine ⟨stExt_trans hLext hoe, how, hok2 declared hLk,
          (int_pos_bound ⟨hLwf.nid, Nat.lt_succ_self _⟩).1, ?_⟩
        rw [hon]
        exact (int_pos_bound ⟨hLwf.nid, Nat.lt_succ_self _⟩).2
    | orE children =>
      have ihl : ∀ c ∈ children, EncodeOk c := fun c hc =>
        ih c (by simp at he; have h2 := List.sizeOf_lt_of_mem hc; omega)
      have hEL := encodeList_ok_of children ihl
      intro declared s r s' h hwf hk
      unfold encode at h
      cases hE : encodeList children declared s with
      | error er =>
        rw [hE] at h
        simp only [bind, Except.bind] at h
        exact absurd h (by simp)
      | ok p =>
        rcases p with ⟨cls, s1⟩
        rw [hE] at h
        simp only [bind, Except.bind] at h
        dsimp only [mkAux] at h
        rw [Except.ok.injEq, Prod.mk.injEq] at h
        obtain ⟨hr, hs⟩ := h
        obtain ⟨hLext, hLwf, hLk, hLb⟩ := hEL declared s cls s1 hE hwf hk
        have hstate : addAll (cls.map (fun cl => [((s1.next_id : Nat) : Int), -cl]))
            (add_clause ((-((s1.next_id : Nat) : Int)) :: cls)
              { s1 with next_id := s1.next_id + 1 })
            = addAll (((-((s1.next_id : Nat) : Int)) :: cls)
                :: cls.map (fun cl => [((s1.next_id : Nat) : Int), -cl]))
              { s1 with next_id := s1.next_id + 1 } :=
          addAll_addAll [(-((s1.next_id : Nat) : Int)) :: cls]
            (cls.map (fun cl => [((s1.next_id : Nat) : Int), -cl]))
            { s1 with next_id := s1.next_id + 1 }
        have hbounds : ∀ c ∈ ((-((s1.next_id : Nat) : Int)) :: cls)
            :: cls.map (fun cl => [((s1.next_id : Nat) : Int), -cl]),
            ∀ l ∈ c, l ≠ 0 ∧ l.natAbs < s1.next_id + 1 := by
          intro c hc l hlm
          rcases List.mem_cons.1 hc with rfl | hc
          · rcases List.mem_cons.1 hlm with rfl | hlm
            · exact int_neg_bound ⟨hLwf.nid, Nat.lt_succ_self _⟩
            · have h3 := hLb l hlm
              exact ⟨h3.1, by omega⟩
          · obtain ⟨x, hx, hceq⟩ := List.mem_map.1 hc
            rw [← hceq] at hlm
            rcases (by simpa using hlm :
                l = ((s1.next_id : Nat) : Int) ∨ l = -x) with rfl | rfl
            · exact int_pos_bound ⟨hLwf.nid, Nat.lt_succ_self _⟩
            · have h3 := hLb x hx
              exact ⟨neg_ne_zero.2 h3.1, by rw [Int.natAbs_neg]; omega⟩
        obtain ⟨hoe, how, hov, hon, hok2⟩ := mkAux_clauses_ok s1 _ hLwf hbounds
        rw [← hs, hstate, ← hr]
        refine ⟨stExt_trans hLext hoe, how, hok2 declared hLk,
          (int_pos_bound ⟨hLwf.nid, Nat.lt_succ_self _⟩).1, ?_⟩
        rw [hon]
        exact (int_pos_bound ⟨hLwf.nid, Nat.lt_succ_self _⟩).2
    | implE lhs rhs =>
      have iha : EncodeOk lhs := ih lhs (by simp at he; omega)
      have ihb : EncodeOk rhs := ih rhs (by simp at he; omega)
      intro declared s r s' h hwf hk
      unfold encode at h
      cases hA : encode lhs declared s with
      | error er =>
        rw [hA] at h
        simp only [bind, Except.bind] at h
        exact absurd h (by simp)
      | ok p =>
        rcases p with ⟨la, s1⟩
        rw [hA] at h
        simp only [bind, Except.bind] at h
        cases hB : encode rhs declared s1 with
        | error er =>
          rw [hB] at h
          simp only [bind, Except.bind] at h
          exact absurd h (by simp)
        | ok q =>
          rcases q with ⟨lb, s2⟩
          rw [hB] at h
          simp only [bind, Except.bind] at h
          dsimp only [mkAux] at h
          rw [Except.ok.injEq, Prod.mk.injEq] at h
          obtain ⟨hr, hs⟩ := h
          obtain ⟨hAext, hAwf, hAk, hAr, hAb⟩ := iha declared s la s1 hA hwf hk
          obtain ⟨hBext, hBwf, hBk, hBr, hBb⟩ := ihb declared s1 lb s2 hB hAwf hAk
          have hab : la.natAbs < s2.next_id := lt_of_lt_of_le hAb hBext.1
          have hbounds : ∀ c ∈ [[-((s2.next_id : Nat) : Int), -la, lb],
              [((s2.next_id : Nat) : Int), la], [((s2.next_id : Nat) : Int), -lb]],
              ∀ l ∈ c, l ≠ 0 ∧ l.natAbs < s2.next_id + 1 := by
            intro c hc l hlm
            rcases (by simpa using hc :
                c = [-((s2.next_id : Nat) : Int), -la, lb] ∨
                c = [((s2.next_id : Nat) : Int), la] ∨
                c = [((s2.next_id : Nat) : Int), -lb]) with rfl | rfl | rfl
            · rcases (by simpa using hlm :
                  l = -((s2.next_id : Nat) : Int) ∨ l = -la ∨ l = lb)
                with rfl | rfl | rfl
              · exact int_neg_bound ⟨hBwf.nid, Nat.lt_succ_self _⟩
              · exact ⟨neg_ne_zero.2 hAr, by rw [Int.natAbs_neg]; omega⟩
              · exact ⟨hBr, by omega⟩
            · rcases (by simpa using hlm :
                  l = ((s2.next_id : Nat) : Int) ∨ l = la) with rfl | rfl
              · exact int_pos_bound ⟨hBwf.nid, Nat.lt_succ_self _⟩
              · exact ⟨hAr, by omega⟩
            · rcases (by simpa using hlm :
                  l = ((s2.next_id : Nat) : Int) ∨ l = -lb) with rfl | rfl
              · exact int_pos_bound ⟨hBwf.nid, Nat.lt_succ_self _⟩
              · exact ⟨neg_ne_zero.2 hBr, by rw [Int.natAbs_neg]; omega⟩
          obtain ⟨hoe, how, hov, hon, hok2⟩ :=
            mkAux_clauses_ok s2 _ hBwf hbounds
          refine ⟨?_, ?_, ?_, ?_, ?_⟩
          · rw [← hs]
            exact stExt_trans hAext (stExt_trans hBext hoe)
          · rw [← hs]
            exact how
          · rw [← hs]
            exact hok2 declared hBk
          · rw [← hr]
            exact (int_pos_bound ⟨hBwf.nid, Nat.lt_succ_self _⟩).1
          · rw [← hr, ← hs]
            show ((s2.next_id : Nat) : Int).natAbs < s2.next_id + 1
            exact (int_pos_bound ⟨hBwf.nid, Nat.lt_succ_self _⟩).2
    | iffE lhs rhs =>
      have iha : EncodeOk lhs := ih lhs (by simp at he; omega)
      have ihb : EncodeOk rhs := ih rhs (by simp at he; omega)
      intro declared s r s' h hwf hk
      unfold encode at h
      cases hA : encode lhs declared s with
      | error er =>
        rw [hA] at h
        simp only [bind, Except.bind] at h
        exact absurd h (by simp)
      | ok p =>
        rcases p with ⟨la, s1⟩
        rw [hA] at h
        simp only [bind, Except.bind] at h
        cases hB : encode rhs declared s1 with
        | error er =>
          rw [hB] at h
          simp only [bind, Except.bind] at h
          exact absurd h (by simp)
        | ok q =>
          rcases q with ⟨lb, s2⟩
          rw [hB] at h
          simp only [bind, Except.bind] at h
          dsimp only [mkAux] at h
          rw [Except.ok.injEq, Prod.mk.injEq] at h
          obtain ⟨hr, hs⟩ := h
          obtain ⟨hAext, hAwf, hAk, hAr, hAb⟩ := iha declared s la s1 hA hwf hk
          obtain ⟨hBext, hBwf, hBk, hBr, hBb⟩ := ihb declared s1 lb s2 hB hAwf hAk
          have hab : la.natAbs < s2.next_id := lt_of_lt_of_le hAb hBext.1
          have hbounds : ∀ c ∈ [[-((s2.next_id : Nat) : Int), -la, lb],
              [-((s2.next_id : Nat) : Int), la, -lb],
              [((s2.next_id : Nat) : Int), la, lb],
              [((s2.next_id : Nat) : Int), -la, -lb]],
              ∀ l ∈ c, l ≠ 0 ∧ l.natAbs < s2.next_id + 1 := by
            intro c hc l hlm
            rcases (by simpa using hc :
                c = [-((s2.next_id : Nat) : Int), -la, lb] ∨
                c = [-((s2.next_id : Nat) : Int), la, -lb] ∨
                c = [((s2.next_id : Nat) : Int), la, lb] ∨
                c = [((s2.next_id : Nat) : Int), -la, -lb])
              with rfl | rfl | rfl | rfl
            · rcases (by simpa using hlm : l = -((s2.next_id : Nat) : Int) ∨
                  l = -la ∨ l = lb) with rfl | rfl | rfl
              · exact int_neg_bound ⟨hBwf.nid, Nat.lt_succ_self _⟩
              · exact ⟨neg_ne_zero.2 hAr, by rw [Int.natAbs_neg]; omega⟩
              · exact ⟨hBr, by omega⟩
            · rcases (by simpa using hlm : l = -((s2.next_id : Nat) : Int) ∨
                  l = la ∨ l = -lb) with rfl | rfl | rfl
              · exact int_neg_bound ⟨hBwf.nid, Nat.lt_succ_self _⟩
              · exact ⟨hAr, by omega⟩
              · exact ⟨neg_ne_zero.2 hBr, by rw [Int.natAbs_neg]; omega⟩
            · rcases (by simpa using hlm : l = ((s2.next_id : Nat) : Int) ∨
                  l = la ∨ l = lb) with rfl | rfl | rfl
              · exact int_pos_bound ⟨hBwf.nid, Nat.lt_succ_self _⟩
              · exact ⟨hAr, by omega⟩
              · exact ⟨hBr, by omega⟩
            · rcases (by simpa using hlm : l = ((s2.next_id : Nat) : Int) ∨
                  l = -la ∨ l = -lb) with rfl | rfl | rfl
              · exact int_pos_bound ⟨hBwf.nid, Nat.lt_succ_self _⟩
              · exact ⟨neg_ne_zero.2 hAr, by rw [Int.natAbs_neg]; omega⟩
              · exact ⟨neg_ne_zero.2 hBr, by rw [Int.natAbs_neg]; omega⟩
          obtain ⟨hoe, how, hov, hon, hok2⟩ :=
            mkAux_clauses_ok s2 _ hBwf hbounds
          refine ⟨?_, ?_, ?_, ?_, ?_⟩
          · rw [← hs]
            exact stExt_trans hAext (stExt_trans hBext hoe)
          · rw [← hs]
            exact how
          · rw [← hs]
            exact hok2 declared hBk
          · rw [← hr]
            exact (int_pos_bound ⟨hBwf.nid, Nat.lt_succ_self _⟩).1
          · rw [← hr, ← hs]
            show ((s2.next_id : Nat) : Int).natAbs < s2.next_id + 1
            exact (int_pos_bound ⟨hBwf.nid, Nat.lt_succ_self _⟩).2
    | xorE lhs rhs =>
      have iha : EncodeOk lhs := ih lhs (by simp at he; omega)
      have ihb : EncodeOk rhs := ih rhs (by simp at he; omega)
      intro declared s r s' h hwf hk
      unfold encode at h
      cases hA : encode lhs declared s with
      | error er =>
        rw [hA] at h
        simp only [bind, Except.bind] at h
        exact absurd h (by simp)
      | ok p =>
        rcases p with ⟨la, s1⟩
        rw [hA] at h
        simp only [bind, Except.bind] at h
        cases hB : encode rhs declared s1 with
        | error er =>
          rw [hB] at h
          simp only [bind, Except.bind] at h
          exact absurd h (by simp)
        | ok q =>
          rcases q with ⟨lb, s2⟩
          rw [hB] at h
          simp only [bind, Except.bind] at h
          dsimp only [mkAux] at h
          rw [Except.ok.injEq, Prod.mk.injEq] at h
          obtain ⟨hr, hs⟩ := h
          obtain ⟨hAext, hAwf, hAk, hAr, hAb⟩ := iha declared s la s1 hA hwf hk
          obtain ⟨hBext, hBwf, hBk, hBr, hBb⟩ := ihb declared s1 lb s2 hB hAwf hAk
          have hab : la.natAbs < s2.next_id := lt_of_lt_of_le hAb hBext.1
          have hbounds : ∀ c ∈ [[-((s2.next_id : Nat) : Int), la, lb],
              [-((s2.next_id : Nat) : Int), -la, -lb],
              [((s2.next_id : Nat) : Int), -la, lb],
              [((s2.next_id : Nat) : Int), la, -lb]],
              ∀ l ∈ c, l ≠ 0 ∧ l.natAbs < s2.next_id + 1 := by
            intro c hc l hlm
            rcases (by simpa using hc :
                c = [-((s2.next_id : Nat) : Int), la, lb] ∨
                c = [-((s2.next_id : Nat) : Int), -la, -lb] ∨
                c = [((s2.next_id : Nat) : Int), -la, lb] ∨
                c = [((s2.next_id : Nat) : Int), la, -lb])
              with rfl | rfl | rfl | rfl
            · rcases (by simpa using hlm : l = -((s2.next_id : Nat) : Int) ∨
                  l = la ∨ l = lb) with rfl | rfl | rfl
              · exact int_neg_bound ⟨hBwf.nid, Nat.lt_succ_self _⟩
              · exact ⟨hAr, by omega⟩
              · exact ⟨hBr, by omega⟩
            · rcases (by simpa using hlm : l = -((s2.next_id : Nat) : Int) ∨
                  l = -la ∨ l = -lb) with rfl | rfl | rfl
              · exact int_neg_bound ⟨hBwf.nid, Nat.lt_succ_self _⟩
              · exact ⟨neg_ne_zero.2 hAr, by rw [Int.natAbs_neg]; omega⟩
              · exact ⟨neg_ne_zero.2 hBr, by rw [Int.natAbs_neg]; omega⟩
            · rcases (by simpa using hlm : l = ((s2.next_id : Nat) : Int) ∨
                  l = -la ∨ l = lb) with rfl | rfl | rfl
              · exact int_pos_bound ⟨hBwf.nid, Nat.lt_succ_self _⟩
              · exact ⟨neg_ne_zero.2 hAr, by rw [Int.natAbs_neg]; omega⟩
              · exact ⟨hBr, by omega⟩
            · rcases (by simpa using hlm : l = ((s2.next_id : Nat) : Int) ∨
                  l = la ∨ l = -lb) with rfl | rfl | rfl
              · exact int_pos_bound ⟨hBwf.nid, Nat.lt_succ_self _⟩
              · exact ⟨hAr, by omega⟩
              · exact ⟨neg_ne_zero.2 hBr, by rw [Int.natAbs_neg]; omega⟩
          obtain ⟨hoe, how, hov, hon, hok2⟩ :=
            mkAux_clauses_ok s2 _ hBwf hbounds
          refine ⟨?_, ?_, ?_, ?_, ?_⟩
          · rw [← hs]
            exact stExt_trans hAext (stExt_trans hBext hoe)
          · rw [← hs]
            exact how
          · rw [← hs]
            exact hok2 declared hBk
          · rw [← hr]
            exact (int_pos_bound ⟨hBwf.nid, Nat.lt_succ_self _⟩).1
          · rw [← hr, ← hs]
            show ((s2.next_id : Nat) : Int).natAbs < s2.next_id + 1
            exact (int_pos_bound ⟨hBwf.nid, Nat.lt_succ_self _⟩).2
    | atMost k vs =>
      intro declared s r s' h hwf hk
      unfold encode at h
      exact encode_atmost_ok h hwf hk
    | atLeast k vs =>
      intro declared s r s' h hwf hk
      unfold encode at h
      exact encode_atleast_ok h hwf hk
    | exactly k vs =>
      intro declared s r s' h hwf hk
      unfold encode at h
      cases hA : encode_atmost k vs declared s with
      | error er =>
        rw [hA] at h
        simp only [bind, Except.bind] at h
        exact absurd h (by simp)
      | ok p =>
        rcases p with ⟨la, s1⟩
        rw [hA] at h
        simp only [bind, Except.bind] at h
        cases hB : encode_atleast k vs declared s1 with
        | error er =>
          rw [hB] at h
          simp only [bind, Except.bind] at h
          exact absurd h (by simp)
        | ok q =>
          rcases q with ⟨lb, s2⟩
          rw [hB] at h
          simp only [bind, Except.bind] at h
          dsimp only [mkAux] at h
          rw [Except.ok.injEq, Prod.mk.injEq] at h
          obtain ⟨hr, hs⟩ := h
          obtain ⟨hAext, hAwf, hAk, hAr, hAb⟩ := encode_atmost_ok hA hwf hk
          obtain ⟨hBext, hBwf, hBk, hBr, hBb⟩ := encode_atleast_ok hB hAwf hAk
          have hab : la.natAbs < s2.next_id := lt_of_lt_of_le hAb hBext.1
          have hbounds : ∀ c ∈ [[-((s2.next_id : Nat) : Int), la],
              [-((s2.next_id : Nat) : Int), lb],
              [((s2.next_id : Nat) : Int), -la, -lb]],
              ∀ l ∈ c, l ≠ 0 ∧ l.natAbs < s2.next_id + 1 := by
            intro c hc l hlm
            rcases (by simpa using hc :
                c = [-((s2.next_id : Nat) : Int), la] ∨
                c = [-((s2.next_id : Nat) : Int), lb] ∨
                c = [((s2.next_id : Nat) : Int), -la, -lb]) with rfl | rfl | rfl
            · rcases (by simpa using hlm :
                  l = -((s2.next_id : Nat) : Int) ∨ l = la) with rfl | rfl
              · exact int_neg_bound ⟨hBwf.nid, Nat.lt_succ_self _⟩
              · exact ⟨hAr, by omega⟩
            · rcases (by simpa using hlm :
                  l = -((s2.next_id : Nat) : Int) ∨ l = lb) with rfl | rfl
              · exact int_neg_bound ⟨hBwf.nid, Nat.lt_succ_self _⟩
              · exact ⟨hBr, by omega⟩
            · rcases (by simpa using hlm :
                  l = ((s2.next_id : Nat) : Int) ∨ l = -la ∨ l = -lb)
                with rfl | rfl | rfl
              · exact int_pos_bound ⟨hBwf.nid, Nat.lt_succ_self _⟩
              · exact ⟨neg_ne_zero.2 hAr, by rw [Int.natAbs_neg]; omega⟩
              · exact ⟨neg_ne_zero.2 hBr, by rw [Int.natAbs_neg]; omega⟩
          obtain ⟨hoe, how, hov, hon, hok2⟩ :=
            mkAux_clauses_ok s2 _ hBwf hbounds
          refine ⟨?_, ?_, ?_, ?_, ?_⟩
          · rw [← hs]
            exact stExt_trans hAext (stExt_trans hBext hoe)
          · rw [← hs]
            exact how
          · rw [← hs]
            exact hok2 declared hBk
          · rw [← hr]
            exact (int_pos_bound ⟨hBwf.nid, Nat.lt_succ_self _⟩).1
          · rw [← hr, ← hs]
            show ((s2.next_id : Nat) : Int).natAbs < s2.next_id + 1
            exact (int_pos_bound ⟨hBwf.nid, Nat.lt_succ_self _⟩).2

theorem encode_ok (e : Expr) : EncodeOk e :=
  encode_ok_sized (sizeOf e) e (le_refl _)

theorem keysOk_mono {d1 d2 : List String} {s : CNFCompiler}
    (hsub : ∀ n ∈ d1, n ∈ d2) (hk : KeysOk d1 s) : KeysOk d2 s := by
  intro p hp
  rcases hk p hp with h | h
  · exact Or.inl (hsub _ h)
  · exact Or.inr h

theorem declNames_ok : ∀ (names declared : List String) (s : CNFCompiler)
    (d' : List String) (s' : CNFCompiler),
    declNames names declared s = .ok (d', s') →
    d' = declared ++ names ∧ StExt s s' ∧
    (WFState s → WFState s') ∧
    (KeysOk declared s → KeysOk d' s') ∧
    (∀ n ∈ names, (s'.var_map.lookup n).isSome = true) := by
  intro names
  induction names with
  | nil =>
    intro declared s d' s' h
    rw [show declNames [] declared s = .ok (declared, s) from rfl,
      Except.ok.injEq, Prod.mk.injEq] at h
    obtain ⟨h1, h2⟩ := h
    subst h1
    subst h2
    exact ⟨by simp, stExt_refl s, fun hwf => hwf, fun hk => hk, by simp⟩
  | cons name rest ih =>
    intro declared s d' s' h
    unfold declNames at h
    by_cases hd : name ∈ declared
    · rw [if_pos hd] at h
      exact absurd h (by simp)
    · rw [if_neg hd] at h
      rcases hv : var_id name s with ⟨i, s1⟩
      rw [hv] at h
      dsimp only at h
      obtain ⟨ih1, ih2, ih3, ih4, ih5⟩ := ih (declared ++ [name]) s1 d' s' h
      obtain ⟨hvext, hvlook, hvwf, hvkeys⟩ := var_id_eq_spec hv
      refine ⟨by rw [ih1]; simp, stExt_trans hvext ih2,
        fun hwf => ih3 (hvwf hwf).1, ?_, ?_⟩
      · intro hk
        refine ih4 ?_
        refine hvkeys (declared ++ [name])
          (Or.inl (List.mem_append_right _ (List.mem_singleton.2 rfl))) ?_
        exact keysOk_mono (fun n hn => List.mem_append_left _ hn) hk
      · intro n hn
        rcases List.mem_cons.1 hn with rfl | hn
        · have hst := stExt_lookup ih2 hvlook
          rw [hst]
          rfl
        · exact ih5 n hn

theorem compileStmts_ok : ∀ (stmts : List Stmt) (declared : List String)
    (s : CNFCompiler) (d' : List String) (s' : CNFCompiler),
    compileStmts stmts declared s = .ok (d', s') →
    d' = declared ++ declaredOf stmts ∧
    (WFState s → KeysOk declared s →
      StExt s s' ∧ WFState s' ∧ KeysOk d' s' ∧
      ((∀ n ∈ declared, (s.var_map.lookup n).isSome = true) →
        ∀ n ∈ d', (s'.var_map.lookup n).isSome = true)) := by
  intro stmts
  induction stmts with
  | nil =>
    intro declared s d' s' h
    rw [show compileStmts [] declared s = .ok (declared, s) from rfl,
      Except.ok.injEq, Prod.mk.injEq] at h
    obtain ⟨h1, h2⟩ := h
    subst h1
    subst h2
    refine ⟨by simp [declaredOf], ?_⟩
    intro hwf hk
    exact ⟨stExt_refl s, hwf, keysOk_mono (by simp [declaredOf]) hk,
      fun hp => by simpa [declaredOf] using hp⟩
  | cons st rest ih =>
    intro declared s d' s' h
    cases st with
    | varDecl names =>
      unfold compileStmts at h
      cases hD : declNames names declared s with
      | error er =>
        rw [hD] at h
        simp only [bind, Except.bind] at h
        exact absurd h (by simp)
      | ok p =>
        rcases p with ⟨d1, s1⟩
        rw [hD] at h
        simp only [bind, Except.bind] at h
        obtain ⟨hd1, hdext, hdwf, hdkeys, hdlook⟩ :=
          declNames_ok names declared s d1 s1 hD
        obtain ⟨ih1, ihc⟩ := ih d1 s1 d' s' h
        refine ⟨?_, ?_⟩
        · rw [ih1, hd1]
          show (declared ++ names) ++ declaredOf rest
            = declared ++ (names ++ declaredOf rest)
          rw [List.append_assoc]
        · intro hwf hk
          obtain ⟨ih2, ih3, ih4, ih5⟩ := ihc (hdwf hwf) (hdkeys hk)
          refine ⟨stExt_trans hdext ih2, ih3, ih4, ?_⟩
          intro hp n hn
          refine ih5 ?_ n hn
          intro m hm
          rw [hd1] at hm
          rcases List.mem_append.1 hm with hm | hm
          · have h2 := hp m hm
            cases hlk : s.var_map.lookup m with
            | none => rw [hlk] at h2; exact absurd h2 (by simp)
            | some v =>
              rw [stExt_lookup hdext hlk]
              rfl
          · exact hdlook m hm
    | constraint e =>
      unfold compileStmts at h
      cases hE : encode e declared s with
      | error er =>
        rw [hE] at h
        simp only [bind, Except.bind] at h
        exact absurd h (by simp)
      | ok p =>
        rcases p with ⟨lit, s1⟩
        rw [hE] at h
        simp only [bind, Except.bind] at h
        obtain ⟨ih1, ihc⟩ := ih declared (add_clause [lit] s1) d' s' h
        obtain ⟨hcext, hcnid, _, hcvm, hcwf, hckeys⟩ := add_clause_spec [lit] s1
        refine ⟨by rw [ih1]; rfl, ?_⟩
        intro hwf hk
        obtain ⟨hEext, hEwf, hEk, hEr, hEb⟩ :=
          encode_ok e declared s lit s1 hE hwf hk
        have hwf2 : WFState (add_clause [lit] s1) := by
          refine hcwf hEwf ?_
          intro l hlm
          have hleq : l = lit := by simpa using hlm
          rw [hleq]
          exact ⟨hEr, hEb⟩
        obtain ⟨ih2, ih3, ih4, ih5⟩ := ihc hwf2 (hckeys declared hEk)
        refine ⟨stExt_trans hEext (stExt_trans hcext ih2), ih3, ih4, ?_⟩
        intro hp n hn
        refine ih5 ?_ n hn
        intro m hm
        have h2 := hp m hm
        cases hlk : s.var_map.lookup m with
        | none => rw [hlk] at h2; exact absurd h2 (by simp)
        | some v =>
          rw [show (add_clause [lit] s1).var_map = s1.var_map from rfl,
            stExt_lookup hEext hlk]
          rfl
    | solveSatisfy =>
      unfold compileStmts at h
      obtain ⟨ih1, ihc⟩ := ih declared s d' s' h
      exact ⟨by rw [ih1]; rfl, ihc⟩

theorem intercalate_go_prefix :
    ∀ (as : List String) (acc sep : String),
      ∃ r : String, String.intercalate.go acc sep as = acc ++ r := by
  intro as
  induction as with
  | nil =>
    intro acc sep
    exact ⟨"", by simp [String.intercalate.go]⟩
  | cons a as ih =>
    intro acc sep
    obtain ⟨r, hr⟩ := ih (acc ++ sep ++ a) sep
    refine ⟨sep ++ a ++ r, ?_⟩
    show String.intercalate.go (acc ++ sep ++ a) sep as = _
    rw [hr]
    simp [String.append_assoc]

theorem dimacsOf_header (s : CNFCompiler) :
    ∃ rest : String, dimacsOf s
      = ("p cnf " ++ toString (s.next_id - 1) ++ " "
          ++ toString s.clauses.length) ++ rest := by
  obtain ⟨r, hr⟩ := intercalate_go_prefix (s.clauses.map clauseLine)
    ("p cnf " ++ toString (s.next_id - 1) ++ " " ++ toString s.clauses.length)
    "\n"
  refine ⟨r ++ "\n", ?_⟩
  show String.intercalate.go
      ("p cnf " ++ toString (s.next_id - 1) ++ " " ++ toString s.clauses.length)
      "\n" (s.clauses.map clauseLine) ++ "\n" = _
  rw [hr]
  simp [String.append_assoc]

theorem initCompiler_wf : WFState initCompiler :=
  ⟨le_refl _, fun p hp => absurd hp (List.not_mem_nil p),
    fun c hc => absurd hc (List.not_mem_nil c)⟩

theorem initCompiler_keys : KeysOk [] initCompiler :=
  fun p hp => absurd hp (List.not_mem_nil p)

theorem compileState_ok {stmts : List Stmt} {s : CNFCompiler}
    (h : compileState stmts = .ok s) :
    ∃ d, compileStmts stmts [] initCompiler = .ok (d, s) := by
  unfold compileState at h
  cases hC : compileStmts stmts [] initCompiler with
  | error er =>
    rw [hC] at h
    simp only [bind, Except.bind] at h
    exact absurd h (by simp)
  | ok p =>
    rcases p with ⟨d, s0⟩
    rw [hC] at h
    simp only [bind, Except.bind] at h
    rw [Except.ok.injEq] at h
    subst h
    exact ⟨d, rfl⟩

theorem compile_of_compileState {stmts : List Stmt} {s : CNFCompiler}
    (h : compileState stmts = .ok s) :
    compile stmts = .ok (dimacsOf s, s.var_map) := by
  unfold compile
  rw [h]
  rfl

/-- Claim C3 is violated by the code: the dual-variable namespace of
`_encode_atleast` (sat_modeler.py 697-707) is not reserved.  The model
`var bool: a, __neg_a; constraint atleast(1, [a, __neg_a]);` is accepted
(the tokenizer allows identifiers starting with `_`), and because the
user variable `__neg_a` is already a `_var_map` key, the encoder reuses
it as the dual of `a` without emitting the equivalence clauses tying it
to `a`.  The resulting CNF is satisfied by the assignment making exactly
variables 3 and 4 true, under which zero members of `V = [a, __neg_a]`
are true even though the compiled constraint was `atleast(1, V)`: the
spec's cardinality-soundness property fails. -/
theorem C3_atleast_capture_unsound :
    compileState [Stmt.varDecl ["a", "__neg_a"],
        Stmt.constraint (Expr.atLeast 1 ["a", "__neg_a"])]
      = .ok ⟨[("a", 1), ("__neg_a", 2), ("__neg___neg_a", 3)], 5,
          [[3, 2], [-3, -2], [-4, -2, -3], [4, 2, 3], [4]]⟩ ∧
    cnfSat (fun n => n == 3 || n == 4)
      [[3, 2], [-3, -2], [-4, -2, -3], [4, 2, 3], [4]] = true ∧
    trueCountIn (fun n => n == 3 || n == 4)
      ⟨[("a", 1), ("__neg_a", 2), ("__neg___neg_a", 3)], 5,
        [[3, 2], [-3, -2], [-4, -2, -3], [4, 2, 3], [4]]⟩
      ["a", "__neg_a"] = 0 ∧
    (0 : Nat) < 1 :=
  ⟨rfl, by decide, by decide, by decide⟩

/-- Claim C5 (corrected).  `CNFCompiler.compile` (sat_modeler.py 490-511)
emits the header `p cnf N M` with `N = self._next_id - 1`, the number of
allocated variable indices (source, Tseitin, register and dual variables
alike), and `M = len(self._clauses)`, the emitted clause count.  `N` is
an upper bound on the absolute value of every emitted literal — every
literal is non-zero with `|l| ≤ N` — but it need not equal the maximum
absolute literal used, contrary to the claim's wording. -/
theorem C5_header_counts (stmts : List Stmt) (s : CNFCompiler)
    (h : compileState stmts = .ok s) :
    compile stmts = .ok (dimacsOf s, s.var_map) ∧
    (∃ rest : String, dimacsOf s
      = ("p cnf " ++ toString (s.next_id - 1) ++ " "
          ++ toString s.clauses.length) ++ rest) ∧
    1 ≤ s.next_id ∧
    (∀ c ∈ s.clauses, ∀ l ∈ c, l ≠ 0 ∧ l.natAbs ≤ s.next_id - 1) := by
  obtain ⟨d, hC⟩ := compileState_ok h
  obtain ⟨hd, hcond⟩ := compileStmts_ok stmts [] initCompiler d s hC
  obtain ⟨hext, hwf, hkeys, hlook⟩ := hcond initCompiler_wf initCompiler_keys
  refine ⟨compile_of_compileState h, dimacsOf_header s, hwf.nid, ?_⟩
  intro c hc l hl
  have h2 := hwf.cl c hc l hl
  have hn := hwf.nid
  exact ⟨h2.1, by omega⟩

/-- Witness for C5 at the model `var bool: x, y; constraint x;`. -/
theorem C5_header_counts_witness :
    compileState [Stmt.varDecl ["x", "y"], Stmt.constraint (Expr.varRef "x")]
      = .ok ⟨[("x", 1), ("y", 2)], 3, [[1]]⟩ ∧
    (compile [Stmt.varDecl ["x", "y"], Stmt.constraint (Expr.varRef "x")]
        = .ok (dimacsOf ⟨[("x", 1), ("y", 2)], 3, [[1]]⟩,
            (⟨[("x", 1), ("y", 2)], 3, [[1]]⟩ : CNFCompiler).var_map) ∧
      (∃ rest : String,
        dimacsOf (⟨[("x", 1), ("y", 2)], 3, [[1]]⟩ : CNFCompiler)
        = ("p cnf "
            ++ toString ((⟨[("x", 1), ("y", 2)], 3, [[1]]⟩ : CNFCompiler).next_id - 1)
            ++ " "
            ++ toString (⟨[("x", 1), ("y", 2)], 3, [[1]]⟩ : CNFCompiler).clauses.length)
            ++ rest) ∧
      1 ≤ (⟨[("x", 1), ("y", 2)], 3, [[1]]⟩ : CNFCompiler).next_id ∧
      (∀ c ∈ (⟨[("x", 1), ("y", 2)], 3, [[1]]⟩ : CNFCompiler).clauses, ∀ l ∈ c,
        l ≠ 0 ∧ l.natAbs
          ≤ (⟨[("x", 1), ("y", 2)], 3, [[1]]⟩ : CNFCompiler).next_id - 1)) :=
  ⟨rfl, C5_header_counts _ _ rfl⟩

/-- Counterexample to C5 as stated: in `var bool: x, y; constraint x;`
the variable `y` is allocated but never used in a clause, so the header
says `p cnf 2 1` while the maximum absolute literal in the emitted
clauses is 1, not 2. -/
theorem C5_counterexample_unused_variable :
    compileState [Stmt.varDecl ["x", "y"], Stmt.constraint (Expr.varRef "x")]
      = .ok ⟨[("x", 1), ("y", 2)], 3, [[1]]⟩ ∧
    dimacsOf ⟨[("x", 1), ("y", 2)], 3, [[1]]⟩ = "p cnf 2 1\n1 0\n" ∧
    maxAbsLit [[1]] = 1 ∧ (2 : Nat) ≠ 1 :=
  ⟨rfl, rfl, rfl, by decide⟩

/-- Claim C6 (corrected).  The variable map returned by
`CNFCompiler.compile` and passed through by `compile_model`
(sat_modeler.py 490-511, 977-1002) maps every declared source identifier
to its DIMACS index, and anonymous auxiliary variables (Tseitin,
pairwise and sequential-counter registers) never appear as keys; but the
dual `__neg_`-prefixed variables introduced by `_encode_atleast` are
recorded in `_var_map` and therefore exposed in the returned map,
contrary to the claim's wording: every key is either a declared
identifier or a `__neg_`-prefixed name. -/
theorem C6_var_map_keys (stmts : List Stmt) (s : CNFCompiler)
    (h : compileState stmts = .ok s) :
    compile stmts = .ok (dimacsOf s, s.var_map) ∧
    (∀ p ∈ s.var_map, p.1 ∈ declaredOf stmts ∨ ∃ v, p.1 = "__neg_" ++ v) ∧
    (∀ name ∈ declaredOf stmts, (s.var_map.lookup name).isSome = true) := by
  obtain ⟨d, hC⟩ := compileState_ok h
  obtain ⟨hd, hcond⟩ := compileStmts_ok stmts [] initCompiler d s hC
  obtain ⟨hext, hwf, hkeys, hlook⟩ := hcond initCompiler_wf initCompiler_keys
  have hd' : d = declaredOf stmts := hd
  refine ⟨compile_of_compileState h, ?_, ?_⟩
  · intro p hp
    have h2 := hkeys p hp
    rw [hd'] at h2
    exact h2
  · intro name hn
    refine hlook (fun m hm => absurd hm (List.not_mem_nil m)) name ?_
    rw [hd']
    exact hn

/-- Witness for C6 at the model `var bool: a; constraint a;`. -/
theorem C6_var_map_keys_witness :
    compileState [Stmt.varDecl ["a"], Stmt.constraint (Expr.varRef "a")]
      = .ok ⟨[("a", 1)], 2, [[1]]⟩ ∧
    (compile [Stmt.varDecl ["a"], Stmt.constraint (Expr.varRef "a")]
        = .ok (dimacsOf ⟨[("a", 1)], 2, [[1]]⟩,
            (⟨[("a", 1)], 2, [[1]]⟩ : CNFCompiler).var_map) ∧
      (∀ p ∈ (⟨[("a", 1)], 2, [[1]]⟩ : CNFCompiler).var_map,
        p.1 ∈ declaredOf [Stmt.varDecl ["a"], Stmt.constraint (Expr.varRef "a")]
          ∨ ∃ v, p.1 = "__neg_" ++ v) ∧
      (∀ name ∈ declaredOf [Stmt.varDecl ["a"],
          Stmt.constraint (Expr.varRef "a")],
        ((⟨[("a", 1)], 2, [[1]]⟩ : CNFCompiler).var_map.lookup name).isSome
          = true)) :=
  ⟨rfl, C6_var_map_keys _ _ rfl⟩

/-- Counterexample to C6 as stated: compiling
`var bool: a, b, c; constraint atleast(1, [a, b, c]);` records the dual
variables `__neg_a`, `__neg_b`, `__neg_c` in `_var_map`, so the returned
map exposes the auxiliary key `__neg_a` (mapped to index 4), which is
not among the declared identifiers. -/
theorem C6_counterexample_dual_key_exposed :
    compileState [Stmt.varDecl ["a", "b", "c"],
        Stmt.constraint (Expr.atLeast 1 ["a", "b", "c"])]
      = .ok ⟨[("a", 1), ("b", 2), ("c", 3), ("__neg_a", 4), ("__neg_b", 5),
          ("__neg_c", 6)], 8,
          [[4, 1], [-4, -1], [5, 2], [-5, -2], [6, 3], [-6, -3],
           [-7, -4, -5, -6], [7, 4, 5, 6], [7]]⟩ ∧
    List.lookup "__neg_a" [("a", 1), ("b", 2), ("c", 3), ("__neg_a", 4),
        ("__neg_b", 5), ("__neg_c", 6)] = some 4 ∧
    "__neg_a" ∉ ["a", "b", "c"] :=
  ⟨rfl, rfl, by decide⟩
